import Mathlib

/-!
# Verification of the SelectiveMasking mask-generation core (`sc_mask_gen.py`)

This file gives a shallow embedding of the saliency-guided mask-position
discovery algorithm and the masked-instance assembly of `sc_mask_gen.py`
(the `SC`, `ASC` and `ModelGen` strategies), and proves / refutes the frozen
claims about it.

Modelling conventions:
* a token is a string; label ids are naturals; classifier scores are rationals
  (the classifier itself is an external black box, abstracted as a score
  function from a token sequence and a label id to a rational);
* the Python random generator is modelled as two queues of pre-drawn values:
  a queue of floats in `[0,1)` for `rng.random()` and a queue of naturals
  supplying the entropy of `rng.randint` (which maps a draw uniformly into the
  requested inclusive range);
* the in-place list mutations of the Python loops (`append` / `pop`) are
  modelled by pure list operations; `list.pop()` is modelled by
  `List.dropLast`, which agrees with `pop` on every non-empty list (every
  reachable prefix of the probe is non-empty as soon as the probed sentences
  are non-empty — an empty prefix would make the Python code raise);
* Python dictionaries keyed by naturals are association lists, Python sets of
  naturals are `Finset ℕ`.
-/

/-- A token is a string (the output unit of the external BERT tokenizer). -/
abbrev Token := String

/-- Model of `MaskedTokenInstance` (`sc_mask_gen.py` line 18): a token sequence
together with per-position mask information.  The per-position dictionary is
either empty (position not masked) or holds the replacement (`"mask"` key) and
the original token (`"label"` key); we model it as
`Option (replacement × original)`. -/
structure MaskedTokenInstance where
  tokens : List Token
  info : List (Option (Token × Token))
deriving Repr, DecidableEq

/-- Model of `InputFeatures` (lines 24-28): the padded id/mask/segment rows handed to
the batched scorer. -/
structure InputFeatures where
  input_ids : List ℕ
  input_mask : List ℕ
  segment_ids : List ℕ
deriving Repr, DecidableEq

/-- The Python `random.Random` object, as the stream of values it will
produce: `floats` are the successive results of `rng.random()`, `nats` the
successive entropy draws consumed by `rng.randint`. -/
structure Rng where
  floats : List ℚ
  nats : List ℕ
deriving Repr, DecidableEq

/-- Python `rng.random()`: pop the next float draw. -/
def Rng.random (r : Rng) : ℚ × Rng :=
  (r.floats.headD 0, ⟨r.floats.tail, r.nats⟩)

/-- Python `rng.randint(a, b)` (both ends inclusive): pop the next entropy draw and
map it into `[a, b]`. -/
def Rng.randint (r : Rng) (a b : ℕ) : ℕ × Rng :=
  (a + r.nats.headD 0 % (b - a + 1), ⟨r.floats, r.nats.tail⟩)

/-- Loop body of `SC.create_mask` (lines 110-124): one salient position is
either skipped (stop word) or assigned a replacement by the 80/10/10 draw. -/
def sc_mask_step (vocab : List Token) (is_stop : Token → Bool) (sen : List Token)
    (acc : List (Option (Token × Token)) × Rng) (pos : ℕ) :
    List (Option (Token × Token)) × Rng :=
  let (masked_info, rng) := acc
  if is_stop (sen.getD pos "") then (masked_info, rng)
  else
    let (d1, rng1) := rng.random
    let (mask_token, rng2) :=
      if d1 < 4/5 then (("[MASK]" : Token), rng1)
      else
        let (d2, rng2) := rng1.random
        if d2 < 1/2 then (sen.getD pos "", rng2)
        else
          let (k, rng3) := rng2.randint 0 (vocab.length - 1)
          (vocab.getD k "", rng3)
    (masked_info.set pos (some (mask_token, sen.getD pos "")), rng2)

/-- Model of `SC.create_mask` (lines 107-125): starting from an all-empty info list
(one slot per token of `sen`), process the salient positions in order. -/
def sc_create_mask (vocab : List Token) (is_stop : Token → Bool)
    (mask_poses : List ℕ) (sen : List Token) (rng : Rng) :
    List (Option (Token × Token)) × Rng :=
  mask_poses.foldl (sc_mask_step vocab is_stop sen)
    (List.replicate sen.length none, rng)

/-- Model of `ASC.create_mask` (lines 305-322): textually identical to
`SC.create_mask`. -/
def asc_create_mask (vocab : List Token) (is_stop : Token → Bool)
    (mask_poses : List ℕ) (sen : List Token) (rng : Rng) :
    List (Option (Token × Token)) × Rng :=
  mask_poses.foldl (sc_mask_step vocab is_stop sen)
    (List.replicate sen.length none, rng)

/-- Loop body of `ModelGen.create_mask` (lines 448-457): same 80/10/10 draw,
but with no stop-word exclusion. -/
def modelgen_mask_step (vocab : List Token) (sen : List Token)
    (acc : List (Option (Token × Token)) × Rng) (pos : ℕ) :
    List (Option (Token × Token)) × Rng :=
  let (masked_info, rng) := acc
  let (d1, rng1) := rng.random
  let (mask_token, rng2) :=
    if d1 < 4/5 then (("[MASK]" : Token), rng1)
    else
      let (d2, rng2) := rng1.random
      if d2 < 1/2 then (sen.getD pos "", rng2)
      else
        let (k, rng3) := rng2.randint 0 (vocab.length - 1)
        (vocab.getD k "", rng3)
  (masked_info.set pos (some (mask_token, sen.getD pos "")), rng2)

/-- Model of `ModelGen.create_mask` (lines 441-458). -/
def modelgen_create_mask (vocab : List Token) (mask_poses : List ℕ)
    (sen : List Token) (rng : Rng) : List (Option (Token × Token)) × Rng :=
  mask_poses.foldl (modelgen_mask_step vocab sen)
    (List.replicate sen.length none, rng)

/-- Model of `SC.convert_examples_to_features`, one example (lines 54-74).  The
tokenizer's `convert_tokens_to_ids` is an external length-preserving map,
abstracted as `tok2id`.  (The model is intended for `max_seq_length ≥ 2`;
Python's negative-slice corner for `max_seq_length < 2` is not exercised by
the claims.) -/
def sc_convert_one (max_seq_length : ℕ) (tok2id : Token → ℕ)
    (tokens_a : List Token) : InputFeatures :=
  let ta := if tokens_a.length > max_seq_length - 2
    then tokens_a.take (max_seq_length - 2) else tokens_a
  let tokens := "[CLS]" :: ta ++ ["[SEP]"]
  let segment_ids := List.replicate tokens.length 0
  let input_ids := tokens.map tok2id
  let input_mask := List.replicate input_ids.length 1
  let padding := List.replicate (max_seq_length - input_ids.length) 0
  ⟨input_ids ++ padding, input_mask ++ padding, segment_ids ++ padding⟩

/-- Model of `ASC.convert_examples_to_features`, one example (lines 326-344): the text
`tokens_b` is truncated to `max_seq_length - 2`, the aspect `tokens_a` is not
truncated at all, and the pair is packed as
`[CLS] a [SEP] b [SEP]`. -/
def asc_convert_one (max_seq_length : ℕ) (tok2id : Token → ℕ)
    (tokens_a tokens_b : List Token) : InputFeatures :=
  let tb := if tokens_b.length > max_seq_length - 2
    then tokens_b.take (max_seq_length - 2) else tokens_b
  let tokens := "[CLS]" :: tokens_a ++ ["[SEP]"] ++ tb ++ ["[SEP]"]
  let segment_ids := List.replicate (tokens_a.length + 2) 0
    ++ List.replicate (tb.length + 1) 1
  let input_ids := tokens.map tok2id
  let input_mask := List.replicate input_ids.length 1
  let padding := List.replicate (max_seq_length - input_ids.length) 0
  ⟨input_ids ++ padding, input_mask ++ padding, segment_ids ++ padding⟩

/-- One candidate row of the per-document survivor list `ds` built at
lines 174-182 of `SC.forward`: `(sentence, doc_id, sen_doc_pos, pred,
score-of-ground-truth)`. -/
structure Cand where
  sen : List Token
  doc_id : ℕ
  sen_doc_pos : ℕ
  pred : ℕ
  score : ℚ
deriving Repr, DecidableEq

/-- The survivor filter of lines 175-182: walking the document's sentences in
original order (`items` pairs each sentence's global position with its
predicted label and its score vector), keep exactly those whose predicted
label equals the document's ground truth, scoring them at the ground-truth
label. -/
def docCands (doc_id gt : ℕ) (items : List (ℕ × List Token × ℕ × List ℚ)) :
    List Cand :=
  items.filterMap fun it =>
    if it.2.2.1 = gt then
      some ⟨it.2.1, doc_id, it.1, it.2.2.1, it.2.2.2.getD gt 0⟩
    else none

/-- Insert a candidate into a list sorted by score descending, after all
candidates of greater-or-equal score.  Together with `sortByScoreDesc` this is
the unique *stable* descending sort and hence extensionally equal to Python's
`sorted(ds, key=lambda x: x[-1], reverse=True)` at line 185. -/
def insertDesc (x : Cand) : List Cand → List Cand
  | [] => [x]
  | y :: ys => if y.score ≤ x.score then x :: y :: ys else y :: insertDesc x ys

/-- Stable descending sort by score (model of line 185). -/
def sortByScoreDesc : List Cand → List Cand
  | [] => []
  | x :: xs => insertDesc x (sortByScoreDesc xs)

/-- Lines 185-186 of `SC.forward`: sort the survivors by ground-truth score
descending and keep the top `max(int(top_sen_rate * len(ds)), 1)`.  Python's
`int()` truncates toward zero, which agrees with `Int.floor` for the
non-negative rates the theorems assume. -/
def selectDoc (top_sen_rate : ℚ) (ds : List Cand) : List Cand :=
  (sortByScoreDesc ds).take (max (⌊top_sen_rate * ds.length⌋.toNat) 1)

/-- Per-sentence probe state of `SC.forward`: the entry of `masked_sens`
(the growing prefix, line 201) together with its `masked_item_info`
dictionary (line 203). -/
structure ProbeSen where
  sen_doc_pos : ℕ
  sen_right_id : ℕ
  doc_ground_truth : ℕ
  masked_sen : List Token
deriving Repr, DecidableEq

/-- Model of `mask_poses_d` (line 205): dictionary from a sentence's global position to
the list of its salient positions, as an association list. -/
abbrev SalMap := List (ℕ × List ℕ)

/-- Lines 220-223: append `p` to the entry of `key`, creating it if absent. -/
def addPos : SalMap → ℕ → ℕ → SalMap
  | [], key, p => [(key, [p])]
  | (k, ps) :: rest, key, p =>
      if k = key then (k, ps ++ [p]) :: rest else (k, ps) :: addPos rest key p

/-- The salient positions recorded for `key` (empty when absent). -/
def salPoses (d : SalMap) (key : ℕ) : List ℕ :=
  (d.lookup key).getD []

/-- The keys present in a `SalMap`. -/
def salKeys (d : SalMap) : List ℕ := d.map Prod.fst

/-- One sentence's processing inside the round of `SC.forward`
(lines 213-230).  `score p l` abstracts the classifier's softmax score of
label `l` on the token sequence `p` (line 209/218).  Returns the sentence's
next state (`none` when it leaves the batch) and the updated `mask_poses_d`.
`masked_sen.pop()` is modelled by `dropLast` (see the file comment). -/
def sc_sen_step (score : List Token → ℕ → ℚ) (threshold : ℚ)
    (right_sens : List (List Token)) (right_scores : List ℚ)
    (mask_pos : ℕ) (st : ProbeSen) (d : SalMap) : Option ProbeSen × SalMap :=
  let origin_score := right_scores.getD st.sen_right_id 0
  let chosen := origin_score - score st.masked_sen st.doc_ground_truth < threshold
  let d1 := if chosen then addPos d st.sen_doc_pos mask_pos else d
  let pre1 := if chosen then st.masked_sen.dropLast else st.masked_sen
  let sen := right_sens.getD st.sen_right_id []
  if mask_pos + 1 < sen.length then
    (some { st with masked_sen := pre1 ++ [sen.getD (mask_pos + 1) ""] }, d1)
  else
    (none, d1)

/-- One full round of the `while` loop of `SC.forward` (lines 208-234):
process every sentence of the batch in order, collecting the survivors. -/
def sc_round (score : List Token → ℕ → ℚ) (threshold : ℚ)
    (right_sens : List (List Token)) (right_scores : List ℚ) (mask_pos : ℕ) :
    List ProbeSen → SalMap → List ProbeSen × SalMap
  | [], d => ([], d)
  | st :: batch, d =>
      let (st1, d1) := sc_sen_step score threshold right_sens right_scores mask_pos st d
      let (batch1, d2) := sc_round score threshold right_sens right_scores mask_pos batch d1
      match st1 with
      | some s => (s :: batch1, d2)
      | none => (batch1, d2)

/-- The `while len(masked_sens) != 0` loop of `SC.forward` (lines 208-234),
with an explicit fuel bound on the number of rounds (the termination theorem
shows the maximal sentence length is enough fuel). -/
def sc_probe_loop (score : List Token → ℕ → ℚ) (threshold : ℚ)
    (right_sens : List (List Token)) (right_scores : List ℚ) :
    ℕ → ℕ → List ProbeSen → SalMap → List ProbeSen × SalMap
  | 0, _, batch, d => (batch, d)
  | fuel + 1, mask_pos, batch, d =>
      match batch with
      | [] => ([], d)
      | st :: rest =>
          let (batch1, d1) :=
            sc_round score threshold right_sens right_scores mask_pos (st :: rest) d
          sc_probe_loop score threshold right_sens right_scores fuel (mask_pos + 1) batch1 d1

/-- The initialisation of `masked_sens` / `masked_item_infos`
(lines 200-203): sentence `i` starts with prefix `sen[0:1]`; `gts i` is
`all_label_ids[sen_doc_ids[sen_doc_pos]]`, the ground-truth label id of the
sentence's document. -/
def sc_init_batch (right_sens : List (List Token))
    (right_sen_doc_poses : List ℕ) (gts : List ℕ) : List ProbeSen :=
  (List.range right_sens.length).map fun i =>
    ⟨right_sen_doc_poses.getD i 0, i, gts.getD i 0, (right_sens.getD i []).take 1⟩

/-- Per-sentence probe state of `ASC.forward` (line 383): the `text` field is
the growing prefix; `aspect` and `label` come from the retained
(text, aspect) pair. -/
structure AscProbeSen where
  text : List Token
  aspect : List Token
  label : ℕ
  sen_right_id : ℕ
deriving Repr, DecidableEq

/-- One sentence's processing inside the round of `ASC.forward`
(lines 392-404).  `score a p l` abstracts the classifier's score of label `l`
on the aspect/text pair `(a, p)`.  Salient positions accumulate into the
per-document sets `mask_poses_L` (line 385/399). -/
def asc_sen_step (score : List Token → List Token → ℕ → ℚ) (threshold : ℚ)
    (right_texts : List (List Token)) (right_scores : List ℚ)
    (right_sen_doc_ids : List ℕ) (mask_pos : ℕ) (st : AscProbeSen)
    (L : List (Finset ℕ)) : Option AscProbeSen × List (Finset ℕ) :=
  let origin_score := right_scores.getD st.sen_right_id 0
  let chosen := origin_score - score st.aspect st.text st.label < threshold
  let doc := right_sen_doc_ids.getD st.sen_right_id 0
  let L1 := if chosen then L.set doc (insert mask_pos (L.getD doc ∅)) else L
  let pre1 := if chosen then st.text.dropLast else st.text
  let full := right_texts.getD st.sen_right_id []
  if mask_pos + 1 < full.length then
    (some { st with text := pre1 ++ [full.getD (mask_pos + 1) ""] }, L1)
  else
    (none, L1)

/-- One full round of the `while` loop of `ASC.forward` (lines 387-407). -/
def asc_round (score : List Token → List Token → ℕ → ℚ) (threshold : ℚ)
    (right_texts : List (List Token)) (right_scores : List ℚ)
    (right_sen_doc_ids : List ℕ) (mask_pos : ℕ) :
    List AscProbeSen → List (Finset ℕ) → List AscProbeSen × List (Finset ℕ)
  | [], L => ([], L)
  | st :: batch, L =>
      let (st1, L1) := asc_sen_step score threshold right_texts right_scores
        right_sen_doc_ids mask_pos st L
      let (batch1, L2) := asc_round score threshold right_texts right_scores
        right_sen_doc_ids mask_pos batch L1
      match st1 with
      | some s => (s :: batch1, L2)
      | none => (batch1, L2)

/-- The `while len(masked_sens) != 0` loop of `ASC.forward`
(lines 387-407), with explicit fuel. -/
def asc_probe_loop (score : List Token → List Token → ℕ → ℚ) (threshold : ℚ)
    (right_texts : List (List Token)) (right_scores : List ℚ)
    (right_sen_doc_ids : List ℕ) :
    ℕ → ℕ → List AscProbeSen → List (Finset ℕ) →
      List AscProbeSen × List (Finset ℕ)
  | 0, _, batch, L => (batch, L)
  | fuel + 1, mask_pos, batch, L =>
      match batch with
      | [] => ([], L)
      | st :: rest =>
          let (batch1, L1) := asc_round score threshold right_texts right_scores
            right_sen_doc_ids mask_pos (st :: rest) L
          asc_probe_loop score threshold right_texts right_scores
            right_sen_doc_ids fuel (mask_pos + 1) batch1 L1

/-- The initialisation of `masked_sens` in `ASC.forward` (lines 382-383):
each retained pair starts with the one-token prefix `text[0:1]`. -/
def asc_init_batch (right_texts : List (List Token))
    (right_aspects : List (List Token)) (right_labels : List ℕ) :
    List AscProbeSen :=
  (List.range right_texts.length).map fun i =>
    ⟨(right_texts.getD i []).take 1, right_aspects.getD i [], right_labels.getD i 0, i⟩

/-- One row of the flat sentence bookkeeping of `SC.forward`
(lines 154-161): `idx` is the sentence's position in the flat `sentences`
list, `doc_id` the entry of `sen_doc_ids` at that position. -/
structure SenRec where
  idx : ℕ
  doc_id : ℕ
  tokens : List Token
deriving Repr, DecidableEq

/-- One document's block of sentence records: global positions `base`,
`base+1`, … all carrying the same `doc_id` (the `extend` calls of
lines 160-161). -/
def docRecs : ℕ → ℕ → List (List Token) → List SenRec
  | _, _, [] => []
  | base, doc_id, s :: ss => ⟨base, doc_id, s⟩ :: docRecs (base + 1) doc_id ss

/-- Lines 154-161 of `SC.forward`: flatten the documents' sentence lists into
`sentences` / `sen_doc_ids`, keeping global positions (`base` positions
already emitted, `doc_id` the next document id). -/
def flattenDocs : ℕ → ℕ → List (List (List Token)) → List SenRec
  | _, _, [] => []
  | base, doc_id, sens :: rest =>
      docRecs base doc_id sens ++ flattenDocs (base + sens.length) (doc_id + 1) rest

/-- The `while i < len(sen_doc_ids) and doc_id == sen_doc_ids[i]` walk of
lines 248-254: split the remaining sentence records into the leading block
belonging to `doc_id` and the rest. -/
def sc_take_doc (doc_id : ℕ) : List SenRec → List SenRec × List SenRec
  | [] => ([], [])
  | r :: rest =>
      if r.doc_id = doc_id then
        let (a, b) := sc_take_doc doc_id rest
        (r :: a, b)
      else ([], r :: rest)

/-- Lines 249-254: build the `MaskedTokenInstance`s of one document's
sentences, looking each sentence's salient positions up in `mask_poses_d`
(empty when absent) and threading the random generator. -/
def sc_gen_doc (vocab : List Token) (is_stop : Token → Bool) (d : SalMap) :
    List SenRec → Rng → List MaskedTokenInstance × Rng
  | [], rng => ([], rng)
  | r :: rest, rng =>
      let mask_poses := (d.lookup r.idx).getD []
      let (m_info, rng1) := sc_create_mask vocab is_stop mask_poses r.tokens rng
      let (insts, rng2) := sc_gen_doc vocab is_stop d rest rng1
      (⟨r.tokens, m_info⟩ :: insts, rng2)

/-- The `for doc_id in range(doc_num)` loop of lines 246-254: one replica's
documents, consuming the flat sentence records in order. -/
def sc_gen_docs (vocab : List Token) (is_stop : Token → Bool) (d : SalMap) :
    ℕ → ℕ → List SenRec → Rng → List (List MaskedTokenInstance) × Rng
  | 0, _, _, rng => ([], rng)
  | n + 1, doc_id, rem, rng =>
      let (mine, rest) := sc_take_doc doc_id rem
      let (insts, rng1) := sc_gen_doc vocab is_stop d mine rng
      let (docs, rng2) := sc_gen_docs vocab is_stop d n (doc_id + 1) rest rng1
      (insts :: docs, rng2)

/-- The `for _ in range(dupe_factor)` loop of lines 244-254: each replica
restarts `i` at 0 (the full record list) and appends its documents to
`all_documents`. -/
def sc_generate (vocab : List Token) (is_stop : Token → Bool) (d : SalMap)
    (doc_num : ℕ) (recs : List SenRec) :
    ℕ → Rng → List (List MaskedTokenInstance) × Rng
  | 0, rng => ([], rng)
  | k + 1, rng =>
      let (docs1, rng1) := sc_gen_docs vocab is_stop d doc_num 0 recs rng
      let (docs2, rng2) := sc_generate vocab is_stop d doc_num recs k rng1
      (docs1 ++ docs2, rng2)

/-- The longest sentence length in a list (bounds the number of probe
rounds). -/
def maxSenLen (sens : List (List Token)) : ℕ :=
  sens.foldr (fun s m => max s.length m) 0

/-- Saliency discovery of `SC.forward` (lines 200-234) as one function: run
the probe loop from the initial one-token prefixes until every sentence has
left the batch, and return the final `mask_poses_d`.  Note no stop-word
predicate enters here. -/
def sc_mask_positions (score : List Token → ℕ → ℚ) (threshold : ℚ)
    (right_sens : List (List Token)) (right_scores : List ℚ)
    (right_sen_doc_poses : List ℕ) (gts : List ℕ) : SalMap :=
  (sc_probe_loop score threshold right_sens right_scores (maxSenLen right_sens) 0
    (sc_init_batch right_sens right_sen_doc_poses gts) []).2

/-- Probe followed by assembly (`SC.forward`, lines 200-256): the stop-word
predicate is consulted only inside `sc_create_mask` at assembly time. -/
def sc_probe_and_generate (vocab : List Token) (is_stop : Token → Bool)
    (score : List Token → ℕ → ℚ) (threshold : ℚ)
    (right_sens : List (List Token)) (right_scores : List ℚ)
    (right_sen_doc_poses : List ℕ) (gts : List ℕ)
    (doc_num : ℕ) (recs : List SenRec) (dupe_factor : ℕ) (rng : Rng) :
    List (List MaskedTokenInstance) × Rng :=
  sc_generate vocab is_stop
    (sc_mask_positions score threshold right_sens right_scores right_sen_doc_poses gts)
    doc_num recs dupe_factor rng

/-! ## Helper lemmas -/

theorem salPoses_addPos_self (d : SalMap) (key p : ℕ) :
    salPoses (addPos d key p) key = salPoses d key ++ [p] := by
  induction d with
  | nil => simp [addPos, salPoses, List.lookup]
  | cons kv rest ih =>
      obtain ⟨k, ps⟩ := kv
      by_cases h : k = key
      · subst h
        simp [addPos, salPoses, List.lookup_cons]
      · have hb : (key == k) = false := by
          simp [beq_iff_eq]
          exact fun hkk => h hkk.symm
        simp only [addPos, if_neg h, salPoses, List.lookup_cons, hb] at ih ⊢
        exact ih

theorem salPoses_addPos_ne (d : SalMap) (key key' p : ℕ) (h : key' ≠ key) :
    salPoses (addPos d key p) key' = salPoses d key' := by
  have hb : (key' == key) = false := by simp [beq_iff_eq, h]
  induction d with
  | nil => simp [addPos, salPoses, List.lookup, hb]
  | cons kv rest ih =>
      obtain ⟨k, ps⟩ := kv
      by_cases hk : k = key
      · subst hk
        simp [addPos, salPoses, List.lookup_cons, hb]
      · by_cases hk' : key' = k
        · subst hk'
          simp [addPos, if_neg hk, salPoses, List.lookup_cons]
        · have hb' : (key' == k) = false := by simp [beq_iff_eq, hk']
          simp only [addPos, if_neg hk, salPoses, List.lookup_cons, hb'] at ih ⊢
          exact ih

theorem mem_salPoses_addPos {d : SalMap} {key key' p q : ℕ}
    (h : q ∈ salPoses (addPos d key p) key') :
    q ∈ salPoses d key' ∨ (q = p ∧ key' = key) := by
  by_cases hk : key' = key
  · subst hk
    rw [salPoses_addPos_self] at h
    rcases List.mem_append.1 h with h' | h'
    · exact Or.inl h'
    · simp at h'
      exact Or.inr ⟨h', rfl⟩
  · rw [salPoses_addPos_ne _ _ _ _ hk] at h
    exact Or.inl h

theorem salKeys_addPos (d : SalMap) (key p : ℕ) :
    salKeys (addPos d key p) ⊆ key :: salKeys d := by
  induction d with
  | nil => simp [addPos, salKeys]
  | cons kv rest ih =>
      obtain ⟨k, ps⟩ := kv
      by_cases h : k = key
      · subst h
        simp only [addPos, if_pos rfl, salKeys, List.map_cons]
        intro a ha
        rcases List.mem_cons.1 ha with ha | ha
        · exact List.mem_cons.2 (Or.inl ha)
        · exact List.mem_cons.2 (Or.inr (List.mem_cons.2 (Or.inr ha)))
      · simp only [addPos, if_neg h, salKeys, List.map_cons]
        intro a ha
        rcases List.mem_cons.1 ha with ha | ha
        · exact List.mem_cons.2 (Or.inr (List.mem_cons.2 (Or.inl ha)))
        · rcases List.mem_cons.1 (ih ha) with h1 | h1
          · exact List.mem_cons.2 (Or.inl h1)
          · exact List.mem_cons.2 (Or.inr (List.mem_cons.2 (Or.inr h1)))

theorem getD_replicate_none (n q : ℕ) :
    (List.replicate n (none : Option (Token × Token))).getD q none = none := by
  rw [List.getD_eq_getElem?_getD, List.getElem?_replicate]
  by_cases h : q < n <;> simp [h]

theorem sc_mask_step_shape (vocab : List Token) (is_stop : Token → Bool)
    (sen : List Token) (acc : List (Option (Token × Token)) × Rng) (p : ℕ) :
    (sc_mask_step vocab is_stop sen acc p).1 = acc.1 ∨
    ∃ t, (sc_mask_step vocab is_stop sen acc p).1 =
      acc.1.set p (some (t, sen.getD p "")) := by
  obtain ⟨info, rng⟩ := acc
  simp only [sc_mask_step, Rng.random, Rng.randint]
  split_ifs with h1 h2 h3
  · left; rfl
  · right; exact ⟨"[MASK]", rfl⟩
  · right; exact ⟨sen.getD p "", rfl⟩
  · right; exact ⟨_, rfl⟩

theorem modelgen_mask_step_shape (vocab : List Token) (sen : List Token)
    (acc : List (Option (Token × Token)) × Rng) (p : ℕ) :
    ∃ t, (modelgen_mask_step vocab sen acc p).1 =
      acc.1.set p (some (t, sen.getD p "")) := by
  obtain ⟨info, rng⟩ := acc
  simp only [modelgen_mask_step, Rng.random, Rng.randint]
  split_ifs with h1 h2
  · exact ⟨"[MASK]", rfl⟩
  · exact ⟨sen.getD p "", rfl⟩
  · exact ⟨_, rfl⟩

theorem sc_mask_step_length (vocab : List Token) (is_stop : Token → Bool)
    (sen : List Token) (acc : List (Option (Token × Token)) × Rng) (p : ℕ) :
    (sc_mask_step vocab is_stop sen acc p).1.length = acc.1.length := by
  rcases sc_mask_step_shape vocab is_stop sen acc p with h | ⟨t, h⟩ <;> simp [h]

theorem modelgen_mask_step_length (vocab : List Token) (sen : List Token)
    (acc : List (Option (Token × Token)) × Rng) (p : ℕ) :
    (modelgen_mask_step vocab sen acc p).1.length = acc.1.length := by
  rcases modelgen_mask_step_shape vocab sen acc p with ⟨t, h⟩
  simp [h]

/-- Positions whose every occurrence in the pose list is stop-excluded (in
particular positions that never occur) keep their info entry. -/
theorem sc_fold_getD_eq (vocab : List Token) (is_stop : Token → Bool)
    (sen : List Token) (q : ℕ) :
    ∀ (poses : List ℕ) (acc : List (Option (Token × Token)) × Rng),
      (∀ p ∈ poses, p = q → is_stop (sen.getD q "") = true) →
      ((poses.foldl (sc_mask_step vocab is_stop sen) acc).1.getD q none)
        = acc.1.getD q none := by
  intro poses
  induction poses with
  | nil => intro acc _; rfl
  | cons p ps ih =>
      intro acc h
      rw [List.foldl_cons, ih _ (fun x hx hxq => h x (List.mem_cons_of_mem _ hx) hxq)]
      by_cases hpq : p = q
      · subst hpq
        have hs := h p (List.mem_cons_self p ps) rfl
        obtain ⟨info, rng⟩ := acc
        simp only [sc_mask_step, hs, if_true]
      · rcases sc_mask_step_shape vocab is_stop sen acc p with hsh | ⟨t, hsh⟩
        · rw [hsh]
        · rw [hsh, List.getD_eq_getElem?_getD, List.getElem?_set_ne hpq,
            ← List.getD_eq_getElem?_getD]

theorem modelgen_fold_getD_eq (vocab : List Token) (sen : List Token) (q : ℕ) :
    ∀ (poses : List ℕ) (acc : List (Option (Token × Token)) × Rng),
      q ∉ poses →
      ((poses.foldl (modelgen_mask_step vocab sen) acc).1.getD q none)
        = acc.1.getD q none := by
  intro poses
  induction poses with
  | nil => intro acc _; rfl
  | cons p ps ih =>
      intro acc h
      have hpq : p ≠ q := fun he => h (he ▸ List.mem_cons_self p ps)
      rw [List.foldl_cons, ih _ (fun hx => h (List.mem_cons_of_mem _ hx))]
      rcases modelgen_mask_step_shape vocab sen acc p with ⟨t, hsh⟩
      rw [hsh, List.getD_eq_getElem?_getD, List.getElem?_set_ne hpq,
        ← List.getD_eq_getElem?_getD]

/-- In `ModelGen.create_mask`'s fold, every listed in-range position ends up
with a (non-empty) mask entry. -/
theorem modelgen_fold_some (vocab : List Token) (sen : List Token) (q : ℕ) :
    ∀ (poses : List ℕ) (acc : List (Option (Token × Token)) × Rng),
      acc.1.length = sen.length →
      ((q ∈ poses ∧ q < sen.length) ∨ acc.1.getD q none ≠ none) →
      (poses.foldl (modelgen_mask_step vocab sen) acc).1.getD q none ≠ none := by
  intro poses
  induction poses with
  | nil =>
      intro acc _ h
      rcases h with ⟨hmem, _⟩ | hne
      · exact absurd hmem (List.not_mem_nil q)
      · exact hne
  | cons p ps ih =>
      intro acc hlen h
      rw [List.foldl_cons]
      rcases modelgen_mask_step_shape vocab sen acc p with ⟨t, hsh⟩
      refine ih _ (by rw [modelgen_mask_step_length, hlen]) ?_
      rcases h with ⟨hmem, hq⟩ | hne
      · rcases List.mem_cons.1 hmem with hpq | hps
        · right
          subst hpq
          rw [hsh, List.getD_eq_getElem?_getD,
            List.getElem?_set_self (by rw [hlen]; exact hq)]
          simp
        · exact Or.inl ⟨hps, hq⟩
      · right
        by_cases hpq : p = q
        · subst hpq
          have hlt : p < acc.1.length := by
            by_contra hql
            rw [List.getD_eq_getElem?_getD,
              List.getElem?_eq_none (Nat.le_of_not_lt hql)] at hne
            simp at hne
          rw [hsh, List.getD_eq_getElem?_getD, List.getElem?_set_self hlt]
          simp
        · rw [hsh, List.getD_eq_getElem?_getD, List.getElem?_set_ne hpq,
            ← List.getD_eq_getElem?_getD]
          exact hne

theorem sc_mask_step_val_mask (vocab : List Token) (is_stop : Token → Bool)
    (sen : List Token) (info : List (Option (Token × Token))) (rng : Rng) (p : ℕ)
    (hs : is_stop (sen.getD p "") = false) (h1 : rng.floats.headD 0 < 4/5) :
    (sc_mask_step vocab is_stop sen (info, rng) p).1 =
      info.set p (some ("[MASK]", sen.getD p "")) := by
  simp only [sc_mask_step, Rng.random, Rng.randint, hs, Bool.false_eq_true,
    if_false, if_pos h1]

theorem sc_mask_step_val_keep (vocab : List Token) (is_stop : Token → Bool)
    (sen : List Token) (info : List (Option (Token × Token))) (rng : Rng) (p : ℕ)
    (hs : is_stop (sen.getD p "") = false) (h1 : ¬ rng.floats.headD 0 < 4/5)
    (h2 : rng.floats.tail.headD 0 < 1/2) :
    (sc_mask_step vocab is_stop sen (info, rng) p).1 =
      info.set p (some (sen.getD p "", sen.getD p "")) := by
  simp only [sc_mask_step, Rng.random, Rng.randint, hs, Bool.false_eq_true,
    if_false, if_neg h1, if_pos h2]

theorem sc_mask_step_val_rand (vocab : List Token) (is_stop : Token → Bool)
    (sen : List Token) (info : List (Option (Token × Token))) (rng : Rng) (p : ℕ)
    (hs : is_stop (sen.getD p "") = false) (h1 : ¬ rng.floats.headD 0 < 4/5)
    (h2 : ¬ rng.floats.tail.headD 0 < 1/2) (hv : vocab ≠ []) :
    (sc_mask_step vocab is_stop sen (info, rng) p).1 =
      info.set p (some (vocab.getD (rng.nats.headD 0 % vocab.length) "",
        sen.getD p "")) := by
  have hlen : vocab.length - 1 - 0 + 1 = vocab.length := by
    have : 0 < vocab.length := List.length_pos.2 hv
    omega
  simp only [sc_mask_step, Rng.random, Rng.randint, hs, Bool.false_eq_true,
    if_false, if_neg h1, if_neg h2, hlen, Nat.zero_add]

theorem modelgen_mask_step_val_mask (vocab : List Token) (sen : List Token)
    (info : List (Option (Token × Token))) (rng : Rng) (p : ℕ)
    (h1 : rng.floats.headD 0 < 4/5) :
    (modelgen_mask_step vocab sen (info, rng) p).1 =
      info.set p (some ("[MASK]", sen.getD p "")) := by
  simp only [modelgen_mask_step, Rng.random, Rng.randint, if_pos h1]

theorem modelgen_mask_step_val_keep (vocab : List Token) (sen : List Token)
    (info : List (Option (Token × Token))) (rng : Rng) (p : ℕ)
    (h1 : ¬ rng.floats.headD 0 < 4/5) (h2 : rng.floats.tail.headD 0 < 1/2) :
    (modelgen_mask_step vocab sen (info, rng) p).1 =
      info.set p (some (sen.getD p "", sen.getD p "")) := by
  simp only [modelgen_mask_step, Rng.random, Rng.randint, if_neg h1, if_pos h2]

theorem modelgen_mask_step_val_rand (vocab : List Token) (sen : List Token)
    (info : List (Option (Token × Token))) (rng : Rng) (p : ℕ)
    (h1 : ¬ rng.floats.headD 0 < 4/5) (h2 : ¬ rng.floats.tail.headD 0 < 1/2)
    (hv : vocab ≠ []) :
    (modelgen_mask_step vocab sen (info, rng) p).1 =
      info.set p (some (vocab.getD (rng.nats.headD 0 % vocab.length) "",
        sen.getD p "")) := by
  have hlen : vocab.length - 1 - 0 + 1 = vocab.length := by
    have : 0 < vocab.length := List.length_pos.2 hv
    omega
  simp only [modelgen_mask_step, Rng.random, Rng.randint, if_neg h1, if_neg h2,
    hlen, Nat.zero_add]

/-- C6: For every salient, non-excluded position and every random stream:
if the first draw is < 0.8 the recorded replacement token is the literal
`"[MASK]"`; otherwise, if the next draw is < 0.5 the replacement is the
original token, else it is a vocabulary entry selected by the next `randint`
draw, which ranges uniformly over the whole vocabulary; positions not in the
salient set receive no masking entry.  Shown for `SC.create_mask` and
`ModelGen.create_mask` (the cited builders), with the salient position at the
head of the pose list so that `rng` is exactly the stream state at its
processing. -/
theorem C6_mask_choice (vocab : List Token) (is_stop : Token → Bool) (pos : ℕ)
    (rest : List ℕ) (sen : List Token) (rng : Rng)
    (hpos : pos < sen.length) (hrest : pos ∉ rest)
    (hs : is_stop (sen.getD pos "") = false) (hv : vocab ≠ []) :
    ((rng.floats.headD 0 < 4/5 →
        (sc_create_mask vocab is_stop (pos :: rest) sen rng).1.getD pos none
          = some ("[MASK]", sen.getD pos "") ∧
        (modelgen_create_mask vocab (pos :: rest) sen rng).1.getD pos none
          = some ("[MASK]", sen.getD pos "")) ∧
     (¬ rng.floats.headD 0 < 4/5 → rng.floats.tail.headD 0 < 1/2 →
        (sc_create_mask vocab is_stop (pos :: rest) sen rng).1.getD pos none
          = some (sen.getD pos "", sen.getD pos "") ∧
        (modelgen_create_mask vocab (pos :: rest) sen rng).1.getD pos none
          = some (sen.getD pos "", sen.getD pos "")) ∧
     (¬ rng.floats.headD 0 < 4/5 → ¬ rng.floats.tail.headD 0 < 1/2 →
        (sc_create_mask vocab is_stop (pos :: rest) sen rng).1.getD pos none
          = some (vocab.getD (rng.nats.headD 0 % vocab.length) "", sen.getD pos "") ∧
        (modelgen_create_mask vocab (pos :: rest) sen rng).1.getD pos none
          = some (vocab.getD (rng.nats.headD 0 % vocab.length) "", sen.getD pos ""))) ∧
    (∀ q, q ∉ pos :: rest →
        (sc_create_mask vocab is_stop (pos :: rest) sen rng).1.getD q none = none ∧
        (modelgen_create_mask vocab (pos :: rest) sen rng).1.getD q none = none) := by
  have hrest' : ∀ p ∈ rest, p = pos → is_stop (sen.getD pos "") = true := by
    intro p hp hpq
    exact absurd (hpq ▸ hp) hrest
  have hsc : (sc_create_mask vocab is_stop (pos :: rest) sen rng).1.getD pos none
      = (sc_mask_step vocab is_stop sen (List.replicate sen.length none, rng) pos).1.getD pos none := by
    rw [sc_create_mask, List.foldl_cons]
    exact sc_fold_getD_eq vocab is_stop sen pos rest _ hrest'
  have hmg : (modelgen_create_mask vocab (pos :: rest) sen rng).1.getD pos none
      = (modelgen_mask_step vocab sen (List.replicate sen.length none, rng) pos).1.getD pos none := by
    rw [modelgen_create_mask, List.foldl_cons]
    exact modelgen_fold_getD_eq vocab sen pos rest _ hrest
  have hlen : pos < (List.replicate sen.length (none : Option (Token × Token))).length := by
    rw [List.length_replicate]; exact hpos
  refine ⟨⟨?_, ?_, ?_⟩, ?_⟩
  · intro h1
    constructor
    · rw [hsc, sc_mask_step_val_mask vocab is_stop sen _ rng pos hs h1,
        List.getD_eq_getElem?_getD, List.getElem?_set_self hlen]
      rfl
    · rw [hmg, modelgen_mask_step_val_mask vocab sen _ rng pos h1,
        List.getD_eq_getElem?_getD, List.getElem?_set_self hlen]
      rfl
  · intro h1 h2
    constructor
    · rw [hsc, sc_mask_step_val_keep vocab is_stop sen _ rng pos hs h1 h2,
        List.getD_eq_getElem?_getD, List.getElem?_set_self hlen]
      rfl
    · rw [hmg, modelgen_mask_step_val_keep vocab sen _ rng pos h1 h2,
        List.getD_eq_getElem?_getD, List.getElem?_set_self hlen]
      rfl
  · intro h1 h2
    constructor
    · rw [hsc, sc_mask_step_val_rand vocab is_stop sen _ rng pos hs h1 h2 hv,
        List.getD_eq_getElem?_getD, List.getElem?_set_self hlen]
      rfl
    · rw [hmg, modelgen_mask_step_val_rand vocab sen _ rng pos h1 h2 hv,
        List.getD_eq_getElem?_getD, List.getElem?_set_self hlen]
      rfl
  · intro q hq
    constructor
    · rw [sc_create_mask,
        sc_fold_getD_eq vocab is_stop sen q (pos :: rest) _
          (fun p hp hpq => absurd (hpq ▸ hp) hq)]
      exact getD_replicate_none _ _
    · rw [modelgen_create_mask, modelgen_fold_getD_eq vocab sen q (pos :: rest) _ hq]
      exact getD_replicate_none _ _

/-- Witness for C6 at a concrete input: first draw 0 < 0.8 records the
literal mask marker. -/
theorem C6_mask_choice_witness :
    (sc_create_mask ["w"] (fun _ => false) [0] ["tok"] ⟨[0], [0]⟩).1.getD 0 none
      = some ("[MASK]", "tok") := by
  have h := (C6_mask_choice ["w"] (fun _ => false) 0 [] ["tok"] ⟨[0], [0]⟩
    (by decide) (by simp) rfl (by simp)).1.1 (by norm_num [List.headD])
  exact h.1

/-- C10: In `ModelGen.create_mask`, every position listed in `mask_poses`
(in range) receives a mask entry regardless of whether its token is a stop
word; and on a concrete input a stop-word token is masked by `ModelGen` while
`SC.create_mask` leaves it unmasked. -/
theorem C10_modelgen_masks_stopwords :
    (∀ (vocab : List Token) (poses : List ℕ) (sen : List Token) (rng : Rng) (pos : ℕ),
        pos ∈ poses → pos < sen.length →
        (modelgen_create_mask vocab poses sen rng).1.getD pos none ≠ none) ∧
    ((modelgen_create_mask ["w"] [0] ["the"] ⟨[0], [0]⟩).1
        = [some ("[MASK]", "the")] ∧
     (sc_create_mask ["w"] (fun t => t == "the") [0] ["the"] ⟨[0], [0]⟩).1
        = [none]) := by
  refine ⟨?_, ?_, ?_⟩
  · intro vocab poses sen rng pos hmem hlt
    exact modelgen_fold_some vocab sen pos poses _ (by simp) (Or.inl ⟨hmem, hlt⟩)
  · have h1 : ((Rng.mk [0] [0]).floats.headD 0 < 4/5) := by norm_num [List.headD]
    rw [modelgen_create_mask, List.foldl_cons, List.foldl_nil,
      modelgen_mask_step_val_mask _ _ _ _ _ h1]
    rfl
  · rfl

/-- Witness for C10 at a concrete input: position 0 of a two-token sentence,
listed in `mask_poses`, gets an entry. -/
theorem C10_modelgen_masks_stopwords_witness :
    (modelgen_create_mask ["w"] [0] ["the", "dog"] ⟨[0], [0]⟩).1.getD 0 none ≠ none :=
  C10_modelgen_masks_stopwords.1 ["w"] [0] ["the", "dog"] ⟨[0], [0]⟩ 0
    (by simp) (by decide)

/-- C5: The SC single-sentence builder always produces rows of exactly
`max_seq_length` (its three assertions never fail, for any input and any
`max_seq_length ≥ 2`); the ASC aspect-pair builder does **not**: with
`max_seq_length = 16`, an empty aspect and a 15-token text, the text is
truncated to 14 tokens but `[CLS] [SEP] [SEP]` brings the row to 17 ≠ 16, so
the `assert len(input_ids) == self.max_seq_length` at line 341 fails.  This
refutes the ASC half of the claim: the failing input is entirely ordinary
(any text of length ≥ `max_seq_length - 1` fails, whatever the aspect). -/
theorem C5_feature_lengths :
    (∀ (max_seq_length : ℕ) (tok2id : Token → ℕ) (tokens_a : List Token),
        2 ≤ max_seq_length →
        (sc_convert_one max_seq_length tok2id tokens_a).input_ids.length = max_seq_length ∧
        (sc_convert_one max_seq_length tok2id tokens_a).input_mask.length = max_seq_length ∧
        (sc_convert_one max_seq_length tok2id tokens_a).segment_ids.length = max_seq_length) ∧
    ((asc_convert_one 16 (fun _ => 0) [] (List.replicate 15 "w")).input_ids.length = 17 ∧
      (17 : ℕ) ≠ 16) := by
  constructor
  · intro max_seq_length tok2id tokens_a h2
    have hta : (if tokens_a.length > max_seq_length - 2
        then tokens_a.take (max_seq_length - 2) else tokens_a).length
          ≤ max_seq_length - 2 := by
      split_ifs with h
      · simp [List.length_take]
      · omega
    refine ⟨?_, ?_, ?_⟩ <;>
      simp only [sc_convert_one, List.length_append, List.length_map,
        List.length_replicate, List.length_cons, List.length_nil] <;>
      omega
  · exact ⟨rfl, by decide⟩

/-- Witness for C5's universally quantified SC half at a concrete input. -/
theorem C5_feature_lengths_witness :
    (sc_convert_one 4 (fun _ => 0) ["a", "b", "c"]).input_ids.length = 4 :=
  (C5_feature_lengths.1 4 (fun _ => 0) ["a", "b", "c"] (by decide)).1

theorem insertDesc_perm (x : Cand) (l : List Cand) :
    (insertDesc x l).Perm (x :: l) := by
  induction l with
  | nil => exact List.Perm.refl _
  | cons y ys ih =>
      rw [insertDesc]
      split_ifs with h
      · exact List.Perm.refl _
      · exact (ih.cons y).trans (List.Perm.swap x y ys)

theorem mem_insertDesc {z x : Cand} {l : List Cand} (h : z ∈ insertDesc x l) :
    z = x ∨ z ∈ l := by
  have := (insertDesc_perm x l).mem_iff.1 h
  simpa using this

theorem insertDesc_sorted {x : Cand} {l : List Cand}
    (h : l.Pairwise (fun a b => b.score ≤ a.score)) :
    (insertDesc x l).Pairwise (fun a b => b.score ≤ a.score) := by
  induction l with
  | nil => simp [insertDesc]
  | cons y ys ih =>
      rw [insertDesc]
      rcases List.pairwise_cons.1 h with ⟨hy, hys⟩
      split_ifs with hxy
      · refine List.pairwise_cons.2 ⟨?_, h⟩
        intro z hz
        rcases List.mem_cons.1 hz with hzy | hzys
        · exact hzy ▸ hxy
        · exact le_trans (hy z hzys) hxy
      · refine List.pairwise_cons.2 ⟨?_, ih hys⟩
        intro z hz
        rcases mem_insertDesc hz with hzx | hzys
        · exact hzx ▸ le_of_lt (lt_of_not_le hxy)
        · exact hy z hzys

theorem sortByScoreDesc_perm (l : List Cand) : (sortByScoreDesc l).Perm l := by
  induction l with
  | nil => exact List.Perm.refl _
  | cons x xs ih => exact (insertDesc_perm x (sortByScoreDesc xs)).trans (ih.cons x)

theorem sortByScoreDesc_sorted (l : List Cand) :
    (sortByScoreDesc l).Pairwise (fun a b => b.score ≤ a.score) := by
  induction l with
  | nil => simp [sortByScoreDesc]
  | cons x xs ih => exact insertDesc_sorted ih

/-- C4 (amended): For each document with at least one correctly-classified
sentence, and `0 ≤ top_sen_rate ≤ 1`, the Sentence Selector retains exactly
`max(⌊top_sen_rate * n⌋, 1)` of the `n` survivors, namely those with the
highest ground-truth-label probability (together with the dropped tail they
are a permutation of the survivors, and every retained score dominates every
dropped score); the retained list is in **descending score order** — not, as
the original claim says, in original relative document order (see the
counterexample). -/
theorem C4_selector_top_amended (top_sen_rate : ℚ) (doc_id gt : ℕ)
    (items : List (ℕ × List Token × ℕ × List ℚ))
    (h0 : 0 ≤ top_sen_rate) (h1 : top_sen_rate ≤ 1)
    (hne : docCands doc_id gt items ≠ []) :
    (selectDoc top_sen_rate (docCands doc_id gt items)).length
        = max (⌊top_sen_rate * (docCands doc_id gt items).length⌋.toNat) 1 ∧
    ((selectDoc top_sen_rate (docCands doc_id gt items)
        ++ (sortByScoreDesc (docCands doc_id gt items)).drop
          (max (⌊top_sen_rate * (docCands doc_id gt items).length⌋.toNat) 1)).Perm
      (docCands doc_id gt items)) ∧
    (∀ a ∈ selectDoc top_sen_rate (docCands doc_id gt items),
      ∀ b ∈ (sortByScoreDesc (docCands doc_id gt items)).drop
          (max (⌊top_sen_rate * (docCands doc_id gt items).length⌋.toNat) 1),
        b.score ≤ a.score) ∧
    (selectDoc top_sen_rate (docCands doc_id gt items)).Pairwise
      (fun a b => b.score ≤ a.score) := by
  set ds := docCands doc_id gt items with hds
  set kk := max (⌊top_sen_rate * ds.length⌋.toNat) 1 with hkk
  have hlen : (sortByScoreDesc ds).length = ds.length :=
    (sortByScoreDesc_perm ds).length_eq
  have hk_le : kk ≤ ds.length := by
    have hfl : ⌊top_sen_rate * ds.length⌋ ≤ (ds.length : ℤ) := by
      have : top_sen_rate * ds.length ≤ (ds.length : ℚ) := by
        calc top_sen_rate * ds.length ≤ 1 * ds.length := by
              apply mul_le_mul_of_nonneg_right h1
              exact_mod_cast Nat.zero_le _
          _ = (ds.length : ℚ) := one_mul _
      calc ⌊top_sen_rate * (ds.length : ℚ)⌋ ≤ ⌊(ds.length : ℚ)⌋ :=
            Int.floor_le_floor this
        _ = (ds.length : ℤ) := Int.floor_natCast _
    have h1' : 1 ≤ ds.length := List.length_pos.2 hne
    have : ⌊top_sen_rate * ds.length⌋.toNat ≤ ds.length := Int.toNat_le.2 hfl
    omega
  refine ⟨?_, ?_, ?_, ?_⟩
  · rw [selectDoc, List.length_take, hlen]
    omega
  · rw [selectDoc, List.take_append_drop]
    exact sortByScoreDesc_perm ds
  · intro a ha b hb
    have hsorted := sortByScoreDesc_sorted ds
    rw [← List.take_append_drop kk (sortByScoreDesc ds), List.pairwise_append]
      at hsorted
    exact hsorted.2.2 a ha b hb
  · exact (sortByScoreDesc_sorted ds).sublist (List.take_sublist _ _)

/-- Witness for C4's amended theorem at a concrete input. -/
theorem C4_selector_top_amended_witness :
    (selectDoc (1/2) (docCands 0 0 [(0, ["s"], 0, [(8 : ℚ)])])).length = 1 := by
  have h := (C4_selector_top_amended (1/2) 0 0 [(0, ["s"], 0, [(8 : ℚ)])]
    (by norm_num) (by norm_num) (by simp [docCands])).1
  rw [h]
  have hlen : (docCands 0 0 [(0, ["s"], 0, [(8 : ℚ)])]).length = 1 := by
    simp [docCands]
  rw [hlen]
  have hfl : ⌊(1/2 : ℚ) * (1 : ℕ)⌋ = 0 := by
    rw [Int.floor_eq_zero_iff]
    constructor <;> norm_num
  rw [hfl]
  rfl

/-- C4 (counterexample): Four correctly-classified sentences with
ground-truth scores `8, 1, 9, 2` at document positions `0, 1, 2, 3` and
`top_sen_rate = 1/2`: the selector keeps the two highest-scored sentences but
emits them in score order `[2, 0]`, which is *not* the original relative
document order — refuting the order part of the claim. -/
theorem C4_selector_order_counterexample :
    ((selectDoc (1/2) (docCands 0 0
        [(0, ["s0"], 0, [(8 : ℚ)]), (1, ["s1"], 0, [1]),
         (2, ["s2"], 0, [9]), (3, ["s3"], 0, [2])])).map Cand.sen_doc_pos
      = [2, 0]) ∧
    ¬ ((selectDoc (1/2) (docCands 0 0
        [(0, ["s0"], 0, [(8 : ℚ)]), (1, ["s1"], 0, [1]),
         (2, ["s2"], 0, [9]), (3, ["s3"], 0, [2])])).map Cand.sen_doc_pos).Pairwise
      (· ≤ ·) := by
  have hds : docCands 0 0
      [(0, ["s0"], 0, [(8 : ℚ)]), (1, ["s1"], 0, [1]),
       (2, ["s2"], 0, [9]), (3, ["s3"], 0, [2])]
      = [⟨["s0"], 0, 0, 0, 8⟩, ⟨["s1"], 0, 1, 0, 1⟩, ⟨["s2"], 0, 2, 0, 9⟩,
         ⟨["s3"], 0, 3, 0, 2⟩] := by
    simp [docCands]
  have hsel : (selectDoc (1/2) (docCands 0 0
      [(0, ["s0"], 0, [(8 : ℚ)]), (1, ["s1"], 0, [1]),
       (2, ["s2"], 0, [9]), (3, ["s3"], 0, [2])])).map Cand.sen_doc_pos
      = [2, 0] := by
    rw [selectDoc, hds]
    have hsort : sortByScoreDesc
        [⟨["s0"], 0, 0, 0, 8⟩, ⟨["s1"], 0, 1, 0, 1⟩, ⟨["s2"], 0, 2, 0, 9⟩,
         ⟨["s3"], 0, 3, 0, 2⟩]
        = [⟨["s2"], 0, 2, 0, 9⟩, ⟨["s0"], 0, 0, 0, 8⟩, ⟨["s3"], 0, 3, 0, 2⟩,
           ⟨["s1"], 0, 1, 0, 1⟩] := by
      norm_num [sortByScoreDesc, insertDesc]
    rw [hsort]
    have hfl : ⌊(1/2 : ℚ) * (([⟨["s0"], 0, 0, 0, 8⟩, ⟨["s1"], 0, 1, 0, 1⟩,
        ⟨["s2"], 0, 2, 0, 9⟩, ⟨["s3"], 0, 3, 0, 2⟩] : List Cand).length : ℕ)⌋ = 2 := by
      norm_num
    rw [hfl]
    rfl
  refine ⟨hsel, ?_⟩
  rw [hsel]
  decide

theorem sc_sen_step_snd (score : List Token → ℕ → ℚ) (threshold : ℚ)
    (right_sens : List (List Token)) (right_scores : List ℚ)
    (mask_pos : ℕ) (st : ProbeSen) (d : SalMap) :
    (sc_sen_step score threshold right_sens right_scores mask_pos st d).2 =
      if right_scores.getD st.sen_right_id 0
          - score st.masked_sen st.doc_ground_truth < threshold
      then addPos d st.sen_doc_pos mask_pos else d := by
  simp only [sc_sen_step]
  split_ifs <;> rfl

theorem sc_sen_step_some {score : List Token → ℕ → ℚ} {threshold : ℚ}
    {right_sens : List (List Token)} {right_scores : List ℚ}
    {mask_pos : ℕ} {st s : ProbeSen} {d : SalMap}
    (h : (sc_sen_step score threshold right_sens right_scores mask_pos st d).1 = some s) :
    mask_pos + 1 < (right_sens.getD st.sen_right_id []).length ∧
    s.sen_doc_pos = st.sen_doc_pos ∧ s.sen_right_id = st.sen_right_id ∧
    s.doc_ground_truth = st.doc_ground_truth := by
  simp only [sc_sen_step] at h
  by_cases halive : mask_pos + 1 < (right_sens.getD st.sen_right_id []).length
  · rw [if_pos halive] at h
    obtain rfl : _ = s := Option.some_injective _ h
    exact ⟨halive, rfl, rfl, rfl⟩
  · rw [if_neg halive] at h
    exact absurd h (by simp)

theorem asc_sen_step_snd (score : List Token → List Token → ℕ → ℚ) (threshold : ℚ)
    (right_texts : List (List Token)) (right_scores : List ℚ)
    (right_sen_doc_ids : List ℕ) (mask_pos : ℕ) (st : AscProbeSen)
    (L : List (Finset ℕ)) :
    (asc_sen_step score threshold right_texts right_scores right_sen_doc_ids
        mask_pos st L).2 =
      if right_scores.getD st.sen_right_id 0
          - score st.aspect st.text st.label < threshold
      then L.set (right_sen_doc_ids.getD st.sen_right_id 0)
        (insert mask_pos (L.getD (right_sen_doc_ids.getD st.sen_right_id 0) ∅))
      else L := by
  simp only [asc_sen_step]
  split_ifs <;> rfl

theorem asc_sen_step_some {score : List Token → List Token → ℕ → ℚ} {threshold : ℚ}
    {right_texts : List (List Token)} {right_scores : List ℚ}
    {right_sen_doc_ids : List ℕ} {mask_pos : ℕ} {st s : AscProbeSen}
    {L : List (Finset ℕ)}
    (h : (asc_sen_step score threshold right_texts right_scores right_sen_doc_ids
        mask_pos st L).1 = some s) :
    mask_pos + 1 < (right_texts.getD st.sen_right_id []).length ∧
    s.sen_right_id = st.sen_right_id := by
  simp only [asc_sen_step] at h
  by_cases halive : mask_pos + 1 < (right_texts.getD st.sen_right_id []).length
  · rw [if_pos halive] at h
    obtain rfl : _ = s := Option.some_injective _ h
    exact ⟨halive, rfl⟩
  · rw [if_neg halive] at h
    exact absurd h (by simp)

theorem sc_sen_step_fst_alive (score : List Token → ℕ → ℚ) (threshold : ℚ)
    (right_sens : List (List Token)) (right_scores : List ℚ)
    (mask_pos : ℕ) (st : ProbeSen) (d : SalMap)
    (halive : mask_pos + 1 < (right_sens.getD st.sen_right_id []).length) :
    (sc_sen_step score threshold right_sens right_scores mask_pos st d).1
      = some { st with masked_sen :=
          (if right_scores.getD st.sen_right_id 0
              - score st.masked_sen st.doc_ground_truth < threshold
           then st.masked_sen.dropLast else st.masked_sen)
          ++ [(right_sens.getD st.sen_right_id []).getD (mask_pos + 1) ""] } := by
  simp only [sc_sen_step, if_pos halive]

theorem asc_sen_step_fst_alive (score : List Token → List Token → ℕ → ℚ)
    (threshold : ℚ) (right_texts : List (List Token)) (right_scores : List ℚ)
    (right_sen_doc_ids : List ℕ) (mask_pos : ℕ) (st : AscProbeSen)
    (L : List (Finset ℕ))
    (halive : mask_pos + 1 < (right_texts.getD st.sen_right_id []).length) :
    (asc_sen_step score threshold right_texts right_scores right_sen_doc_ids
        mask_pos st L).1
      = some { st with text :=
          (if right_scores.getD st.sen_right_id 0
              - score st.aspect st.text st.label < threshold
           then st.text.dropLast else st.text)
          ++ [(right_texts.getD st.sen_right_id []).getD (mask_pos + 1) ""] } := by
  simp only [asc_sen_step, if_pos halive]

/-- C1: For every sentence alive in a probe round: if the full sentence's
ground-truth-label score minus the current prefix's ground-truth-label score
is strictly below the threshold, the current round index is appended to the
sentence's salient-position record (`mask_poses_d[sen_doc_pos]` for `SC`,
`mask_poses_L[doc]` for `ASC`) and the prefix's tail token is removed before
the next token is appended; otherwise nothing is recorded and the prefix
keeps its tail before the next token is appended. -/
theorem C1_score_drop_rule :
    (∀ (score : List Token → ℕ → ℚ) (threshold : ℚ)
        (right_sens : List (List Token)) (right_scores : List ℚ)
        (mask_pos : ℕ) (st : ProbeSen) (d : SalMap),
      mask_pos + 1 < (right_sens.getD st.sen_right_id []).length →
      ((right_scores.getD st.sen_right_id 0
            - score st.masked_sen st.doc_ground_truth < threshold →
          salPoses (sc_sen_step score threshold right_sens right_scores mask_pos st d).2
              st.sen_doc_pos
            = salPoses d st.sen_doc_pos ++ [mask_pos] ∧
          (sc_sen_step score threshold right_sens right_scores mask_pos st d).1
            = some { st with masked_sen := st.masked_sen.dropLast
                ++ [(right_sens.getD st.sen_right_id []).getD (mask_pos + 1) ""] }) ∧
        (¬ right_scores.getD st.sen_right_id 0
            - score st.masked_sen st.doc_ground_truth < threshold →
          (sc_sen_step score threshold right_sens right_scores mask_pos st d).2 = d ∧
          (sc_sen_step score threshold right_sens right_scores mask_pos st d).1
            = some { st with masked_sen := st.masked_sen
                ++ [(right_sens.getD st.sen_right_id []).getD (mask_pos + 1) ""] }))) ∧
    (∀ (score : List Token → List Token → ℕ → ℚ) (threshold : ℚ)
        (right_texts : List (List Token)) (right_scores : List ℚ)
        (right_sen_doc_ids : List ℕ) (mask_pos : ℕ) (st : AscProbeSen)
        (L : List (Finset ℕ)),
      mask_pos + 1 < (right_texts.getD st.sen_right_id []).length →
      ((right_scores.getD st.sen_right_id 0
            - score st.aspect st.text st.label < threshold →
          (asc_sen_step score threshold right_texts right_scores right_sen_doc_ids
              mask_pos st L).2
            = L.set (right_sen_doc_ids.getD st.sen_right_id 0)
                (insert mask_pos (L.getD (right_sen_doc_ids.getD st.sen_right_id 0) ∅)) ∧
          (asc_sen_step score threshold right_texts right_scores right_sen_doc_ids
              mask_pos st L).1
            = some { st with text := st.text.dropLast
                ++ [(right_texts.getD st.sen_right_id []).getD (mask_pos + 1) ""] }) ∧
        (¬ right_scores.getD st.sen_right_id 0
            - score st.aspect st.text st.label < threshold →
          (asc_sen_step score threshold right_texts right_scores right_sen_doc_ids
              mask_pos st L).2 = L ∧
          (asc_sen_step score threshold right_texts right_scores right_sen_doc_ids
              mask_pos st L).1
            = some { st with text := st.text
                ++ [(right_texts.getD st.sen_right_id []).getD (mask_pos + 1) ""] }))) := by
  constructor
  · intro score threshold right_sens right_scores mask_pos st d halive
    constructor
    · intro hch
      refine ⟨?_, ?_⟩
      · rw [sc_sen_step_snd, if_pos hch, salPoses_addPos_self]
      · simp only [sc_sen_step, if_pos hch, if_pos halive]
    · intro hch
      refine ⟨?_, ?_⟩
      · rw [sc_sen_step_snd, if_neg hch]
      · simp only [sc_sen_step, if_neg hch, if_pos halive]
  · intro score threshold right_texts right_scores right_sen_doc_ids mask_pos st L halive
    constructor
    · intro hch
      refine ⟨?_, ?_⟩
      · rw [asc_sen_step_snd, if_pos hch]
      · simp only [asc_sen_step, if_pos hch, if_pos halive]
    · intro hch
      refine ⟨?_, ?_⟩
      · rw [asc_sen_step_snd, if_neg hch]
      · simp only [asc_sen_step, if_neg hch, if_pos halive]

/-- Witness for C1 at a concrete input (the score-drop test fires: the round
index is recorded and the prefix loses its tail before growing). -/
theorem C1_score_drop_rule_witness :
    salPoses ((sc_sen_step (fun _ _ => 0) 1 [["a", "b", "c"]] [0] 0
        ⟨0, 0, 0, ["a"]⟩ []).2) 0 = [0] ∧
    (sc_sen_step (fun _ _ => 0) 1 [["a", "b", "c"]] [0] 0
        ⟨0, 0, 0, ["a"]⟩ []).1 = some ⟨0, 0, 0, ["b"]⟩ := by
  have h := (C1_score_drop_rule.1 (fun _ _ => 0) 1 [["a", "b", "c"]] [0] 0
    ⟨0, 0, 0, ["a"]⟩ [] (by decide)).1 (by norm_num [List.getD])
  refine ⟨?_, ?_⟩
  · rw [h.1]; rfl
  · rw [h.2]; rfl

theorem list_getD_set (L : List (Finset ℕ)) (i j : ℕ) (s : Finset ℕ) :
    (L.set i s).getD j ∅ = if i = j ∧ i < L.length then s else L.getD j ∅ := by
  rw [List.getD_eq_getElem?_getD, List.getElem?_set]
  by_cases hij : i = j
  · subst hij
    by_cases hl : i < L.length
    · simp [hl]
    · simp only [if_pos rfl, if_neg hl, hl, and_false, if_false,
        Option.getD_none, List.getD_eq_getElem?_getD,
        List.getElem?_eq_none (le_of_not_lt hl)]
      simp
  · simp [hij, List.getD_eq_getElem?_getD]

theorem mem_list_getD_set {L : List (Finset ℕ)} {i j p : ℕ} {s : Finset ℕ}
    (h : p ∈ (L.set i s).getD j ∅) : p ∈ L.getD j ∅ ∨ (j = i ∧ p ∈ s) := by
  rw [list_getD_set] at h
  split_ifs at h with hc
  · exact Or.inr ⟨hc.1.symm, h⟩
  · exact Or.inl h

/-- C3 (amended): Per probe round, each alive sentence's prefix length
stays the *same* when the tested position is judged salient (the tail is
popped before the next token is appended) and grows by exactly one otherwise;
and per round at most one position — the current round index — is appended to
any sentence's salient record.  (The original claim's "strictly increases by
exactly one per round" is refuted by the counterexample.) -/
theorem C3_prefix_growth_amended :
    (∀ (score : List Token → ℕ → ℚ) (threshold : ℚ)
        (right_sens : List (List Token)) (right_scores : List ℚ)
        (mask_pos : ℕ) (st : ProbeSen) (d : SalMap),
      st.masked_sen ≠ [] →
      mask_pos + 1 < (right_sens.getD st.sen_right_id []).length →
      (∃ s, (sc_sen_step score threshold right_sens right_scores mask_pos st d).1
          = some s ∧
        s.masked_sen.length =
          (if right_scores.getD st.sen_right_id 0
              - score st.masked_sen st.doc_ground_truth < threshold
           then st.masked_sen.length else st.masked_sen.length + 1)) ∧
      (∀ key, salPoses (sc_sen_step score threshold right_sens right_scores
            mask_pos st d).2 key = salPoses d key ∨
          (key = st.sen_doc_pos ∧
            salPoses (sc_sen_step score threshold right_sens right_scores
              mask_pos st d).2 key = salPoses d key ++ [mask_pos]))) ∧
    (∀ (score : List Token → List Token → ℕ → ℚ) (threshold : ℚ)
        (right_texts : List (List Token)) (right_scores : List ℚ)
        (right_sen_doc_ids : List ℕ) (mask_pos : ℕ) (st : AscProbeSen)
        (L : List (Finset ℕ)),
      st.text ≠ [] →
      mask_pos + 1 < (right_texts.getD st.sen_right_id []).length →
      (∃ s, (asc_sen_step score threshold right_texts right_scores
            right_sen_doc_ids mask_pos st L).1 = some s ∧
        s.text.length =
          (if right_scores.getD st.sen_right_id 0
              - score st.aspect st.text st.label < threshold
           then st.text.length else st.text.length + 1)) ∧
      (∀ doc, (asc_sen_step score threshold right_texts right_scores
            right_sen_doc_ids mask_pos st L).2.getD doc ∅ = L.getD doc ∅ ∨
          (asc_sen_step score threshold right_texts right_scores
            right_sen_doc_ids mask_pos st L).2.getD doc ∅
            = insert mask_pos (L.getD doc ∅))) := by
  constructor
  · intro score threshold right_sens right_scores mask_pos st d hne halive
    have hpos : 0 < st.masked_sen.length := List.length_pos.2 hne
    constructor
    · by_cases hch : right_scores.getD st.sen_right_id 0
          - score st.masked_sen st.doc_ground_truth < threshold
      · refine ⟨_, by rw [sc_sen_step_fst_alive score threshold right_sens
          right_scores mask_pos st d halive, if_pos hch], ?_⟩
        rw [if_pos hch]
        simp only [List.length_append, List.length_dropLast, List.length_cons,
          List.length_nil]
        omega
      · refine ⟨_, by rw [sc_sen_step_fst_alive score threshold right_sens
          right_scores mask_pos st d halive, if_neg hch], ?_⟩
        rw [if_neg hch]
        simp only [List.length_append, List.length_cons, List.length_nil]
    · intro key
      rw [sc_sen_step_snd]
      split_ifs with hch
      · by_cases hk : key = st.sen_doc_pos
        · exact Or.inr ⟨hk, by rw [hk, salPoses_addPos_self]⟩
        · exact Or.inl (salPoses_addPos_ne d st.sen_doc_pos key mask_pos hk)
      · exact Or.inl rfl
  · intro score threshold right_texts right_scores right_sen_doc_ids mask_pos st L
      hne halive
    have hpos : 0 < st.text.length := List.length_pos.2 hne
    constructor
    · by_cases hch : right_scores.getD st.sen_right_id 0
          - score st.aspect st.text st.label < threshold
      · refine ⟨_, by rw [asc_sen_step_fst_alive score threshold right_texts
          right_scores right_sen_doc_ids mask_pos st L halive, if_pos hch], ?_⟩
        rw [if_pos hch]
        simp only [List.length_append, List.length_dropLast, List.length_cons,
          List.length_nil]
        omega
      · refine ⟨_, by rw [asc_sen_step_fst_alive score threshold right_texts
          right_scores right_sen_doc_ids mask_pos st L halive, if_neg hch], ?_⟩
        rw [if_neg hch]
        simp only [List.length_append, List.length_cons, List.length_nil]
    · intro doc
      rw [asc_sen_step_snd]
      split_ifs with hch
      · rw [list_getD_set]
        split_ifs with hc
        · rw [hc.1]
          exact Or.inr rfl
        · exact Or.inl rfl
      · exact Or.inl rfl

/-- Witness for C3's amended theorem at a concrete input. -/
theorem C3_prefix_growth_amended_witness :
    salPoses ((sc_sen_step (fun _ _ => 0) 1 [["a", "b", "c"]] [0] 0
        ⟨0, 0, 0, ["a"]⟩ []).2) 0 = salPoses [] 0 ∨
    ((0 : ℕ) = (⟨0, 0, 0, ["a"]⟩ : ProbeSen).sen_doc_pos ∧
      salPoses ((sc_sen_step (fun _ _ => 0) 1 [["a", "b", "c"]] [0] 0
        ⟨0, 0, 0, ["a"]⟩ []).2) 0 = salPoses [] 0 ++ [0]) :=
  ((C3_prefix_growth_amended.1 (fun _ _ => 0) 1 [["a", "b", "c"]] [0] 0
    ⟨0, 0, 0, ["a"]⟩ [] (by simp) (by decide)).2) 0

/-- C3 (counterexample): One concrete probe round (full-sentence score 0,
prefix score 0, threshold 1, so the score-drop test fires): the sentence
stays alive, a salient position is recorded, yet its prefix length after the
round is 1 — the same as before the round, not the previous length plus one.
The claimed strict per-round increase by exactly one is false. -/
theorem C3_prefix_growth_counterexample :
    ((sc_round (fun _ _ => 0) 1 [["a", "b", "c"]] [0] 0
        [⟨0, 0, 0, ["a"]⟩] []).1.map (fun st => st.masked_sen.length) = [1]) ∧
    (([(⟨0, 0, 0, ["a"]⟩ : ProbeSen)].map (fun st => st.masked_sen.length)) = [1]) ∧
    ((sc_round (fun _ _ => 0) 1 [["a", "b", "c"]] [0] 0
        [⟨0, 0, 0, ["a"]⟩] []).2 = [(0, [0])]) ∧
    ¬ (1 : ℕ) = 1 + 1 := by
  refine ⟨?_, rfl, ?_, by decide⟩
  · simp [sc_round, sc_sen_step, addPos]
  · simp [sc_round, sc_sen_step, addPos]

/-- Every survivor of an `SC` round is still alive for the next round index
and inherits its provenance from some batch member. -/
theorem sc_round_surv (score : List Token → ℕ → ℚ) (threshold : ℚ)
    (right_sens : List (List Token)) (right_scores : List ℚ) (mask_pos : ℕ) :
    ∀ (batch : List ProbeSen) (d : SalMap) (s : ProbeSen),
      s ∈ (sc_round score threshold right_sens right_scores mask_pos batch d).1 →
      mask_pos + 1 < (right_sens.getD s.sen_right_id []).length ∧
      ∃ st ∈ batch, s.sen_doc_pos = st.sen_doc_pos ∧ s.sen_right_id = st.sen_right_id := by
  intro batch
  induction batch with
  | nil => intro d s h; exact absurd h (List.not_mem_nil s)
  | cons st rest ih =>
      intro d s h
      rw [sc_round] at h
      cases hstep : sc_sen_step score threshold right_sens right_scores mask_pos st d with
      | mk st1 d1 =>
        rw [hstep] at h
        dsimp only at h
        cases hrec : sc_round score threshold right_sens right_scores mask_pos rest d1 with
        | mk batch1 d2 =>
          rw [hrec] at h
          dsimp only at h
          cases st1 with
          | none =>
              obtain ⟨hlt, st', hst', heq⟩ := ih d1 s (by rw [hrec]; exact h)
              exact ⟨hlt, st', List.mem_cons_of_mem _ hst', heq⟩
          | some s0 =>
              rcases List.mem_cons.1 h with rfl | hmem
              · have h0 := sc_sen_step_some
                  (by rw [hstep] :
                    (sc_sen_step score threshold right_sens right_scores mask_pos st d).1
                      = some s)
                obtain ⟨hlt, hdp, hrid, _⟩ := h0
                exact ⟨by rw [hrid]; exact hlt, st, List.mem_cons_self st rest, hdp, hrid⟩
              · obtain ⟨hlt, st', hst', heq⟩ := ih d1 s (by rw [hrec]; exact hmem)
                exact ⟨hlt, st', List.mem_cons_of_mem _ hst', heq⟩

/-- One `SC` sentence step preserves the salient-position range invariant. -/
theorem sc_sen_step_salient (score : List Token → ℕ → ℚ) (threshold : ℚ)
    (right_sens : List (List Token)) (right_scores : List ℚ)
    (sentences : List (List Token)) (mask_pos : ℕ) (st : ProbeSen) (d : SalMap)
    (hlt : mask_pos < (right_sens.getD st.sen_right_id []).length)
    (hassoc : sentences.getD st.sen_doc_pos [] = right_sens.getD st.sen_right_id [])
    (hd : ∀ key pos, pos ∈ salPoses d key → pos < (sentences.getD key []).length) :
    ∀ key pos,
      pos ∈ salPoses (sc_sen_step score threshold right_sens right_scores
        mask_pos st d).2 key →
      pos < (sentences.getD key []).length := by
  intro key pos hmem
  rw [sc_sen_step_snd] at hmem
  split_ifs at hmem with hch
  · rcases mem_salPoses_addPos hmem with hold | ⟨rfl, rfl⟩
    · exact hd key pos hold
    · rw [hassoc]
      exact hlt
  · exact hd key pos hmem

/-- One `SC` round preserves the salient-position range invariant. -/
theorem sc_round_salient (score : List Token → ℕ → ℚ) (threshold : ℚ)
    (right_sens : List (List Token)) (right_scores : List ℚ)
    (sentences : List (List Token)) (mask_pos : ℕ) :
    ∀ (batch : List ProbeSen) (d : SalMap),
      (∀ st ∈ batch, mask_pos < (right_sens.getD st.sen_right_id []).length ∧
        sentences.getD st.sen_doc_pos [] = right_sens.getD st.sen_right_id []) →
      (∀ key pos, pos ∈ salPoses d key → pos < (sentences.getD key []).length) →
      ∀ key pos,
        pos ∈ salPoses (sc_round score threshold right_sens right_scores
          mask_pos batch d).2 key →
        pos < (sentences.getD key []).length := by
  intro batch
  induction batch with
  | nil => intro d _ hd key pos h; exact hd key pos h
  | cons st rest ih =>
      intro d hb hd key pos h
      rw [sc_round] at h
      cases hstep : sc_sen_step score threshold right_sens right_scores mask_pos st d with
      | mk st1 d1 =>
        rw [hstep] at h
        dsimp only at h
        cases hrec : sc_round score threshold right_sens right_scores mask_pos rest d1 with
        | mk batch1 d2 =>
          rw [hrec] at h
          dsimp only at h
          have hd1 : ∀ key pos, pos ∈ salPoses d1 key →
              pos < (sentences.getD key []).length := by
            intro k p hp
            exact sc_sen_step_salient score threshold right_sens right_scores
              sentences mask_pos st d (hb st (List.mem_cons_self st rest)).1
              (hb st (List.mem_cons_self st rest)).2 hd k p (by rw [hstep]; exact hp)
          have hrest : ∀ k p, p ∈ salPoses d2 k → p < (sentences.getD k []).length := by
            intro k p hp
            exact ih d1 (fun x hx => hb x (List.mem_cons_of_mem _ hx)) hd1 k p
              (by rw [hrec]; exact hp)
          cases st1 <;> exact hrest key pos h

/-- The `SC` probe loop preserves the salient-position range invariant for
any amount of fuel. -/
theorem sc_probe_loop_salient (score : List Token → ℕ → ℚ) (threshold : ℚ)
    (right_sens : List (List Token)) (right_scores : List ℚ)
    (sentences : List (List Token)) :
    ∀ (fuel mask_pos : ℕ) (batch : List ProbeSen) (d : SalMap),
      (∀ st ∈ batch, mask_pos < (right_sens.getD st.sen_right_id []).length ∧
        sentences.getD st.sen_doc_pos [] = right_sens.getD st.sen_right_id []) →
      (∀ key pos, pos ∈ salPoses d key → pos < (sentences.getD key []).length) →
      ∀ key pos,
        pos ∈ salPoses (sc_probe_loop score threshold right_sens right_scores
          fuel mask_pos batch d).2 key →
        pos < (sentences.getD key []).length := by
  intro fuel
  induction fuel with
  | zero => intro mask_pos batch d _ hd key pos h; exact hd key pos h
  | succ fuel ih =>
      intro mask_pos batch d hb hd key pos h
      rw [sc_probe_loop.eq_def] at h
      cases batch with
      | nil => dsimp only at h; exact hd key pos h
      | cons st rest =>
          dsimp only at h
          cases hround : sc_round score threshold right_sens right_scores mask_pos
              (st :: rest) d with
          | mk batch1 d1 =>
            rw [hround] at h
            dsimp only at h
            have hb1 : ∀ x ∈ batch1,
                mask_pos + 1 < (right_sens.getD x.sen_right_id []).length ∧
                sentences.getD x.sen_doc_pos [] = right_sens.getD x.sen_right_id [] := by
              intro x hx
              obtain ⟨hlt, st', hst', hdp, hrid⟩ :=
                sc_round_surv score threshold right_sens right_scores mask_pos
                  (st :: rest) d x (by rw [hround]; exact hx)
              refine ⟨hlt, ?_⟩
              rw [hdp, hrid]
              exact (hb st' hst').2
            have hd1 : ∀ k p, p ∈ salPoses d1 k → p < (sentences.getD k []).length := by
              intro k p hp
              exact sc_round_salient score threshold right_sens right_scores sentences
                mask_pos (st :: rest) d hb hd k p (by rw [hround]; exact hp)
            exact ih (mask_pos + 1) batch1 d1 hb1 hd1 key pos h

/-- Every survivor of an `ASC` round is still alive for the next round index
and inherits its `sen_right_id` from some batch member. -/
theorem asc_round_surv (score : List Token → List Token → ℕ → ℚ) (threshold : ℚ)
    (right_texts : List (List Token)) (right_scores : List ℚ)
    (right_sen_doc_ids : List ℕ) (mask_pos : ℕ) :
    ∀ (batch : List AscProbeSen) (L : List (Finset ℕ)) (s : AscProbeSen),
      s ∈ (asc_round score threshold right_texts right_scores right_sen_doc_ids
        mask_pos batch L).1 →
      mask_pos + 1 < (right_texts.getD s.sen_right_id []).length ∧
      ∃ st ∈ batch, s.sen_right_id = st.sen_right_id := by
  intro batch
  induction batch with
  | nil => intro L s h; exact absurd h (List.not_mem_nil s)
  | cons st rest ih =>
      intro L s h
      rw [asc_round] at h
      cases hstep : asc_sen_step score threshold right_texts right_scores
          right_sen_doc_ids mask_pos st L with
      | mk st1 L1 =>
        rw [hstep] at h
        dsimp only at h
        cases hrec : asc_round score threshold right_texts right_scores
            right_sen_doc_ids mask_pos rest L1 with
        | mk batch1 L2 =>
          rw [hrec] at h
          dsimp only at h
          cases st1 with
          | none =>
              obtain ⟨hlt, st', hst', heq⟩ := ih L1 s (by rw [hrec]; exact h)
              exact ⟨hlt, st', List.mem_cons_of_mem _ hst', heq⟩
          | some s0 =>
              rcases List.mem_cons.1 h with rfl | hmem
              · have h0 := asc_sen_step_some
                  (by rw [hstep] :
                    (asc_sen_step score threshold right_texts right_scores
                      right_sen_doc_ids mask_pos st L).1 = some s)
                obtain ⟨hlt, hrid⟩ := h0
                exact ⟨by rw [hrid]; exact hlt, st, List.mem_cons_self st rest, hrid⟩
              · obtain ⟨hlt, st', hst', heq⟩ := ih L1 s (by rw [hrec]; exact hmem)
                exact ⟨hlt, st', List.mem_cons_of_mem _ hst', heq⟩

/-- One `ASC` sentence step preserves the salient-position range invariant
(positions are bounded by the length of the document's tokenized text). -/
theorem asc_sen_step_salient (score : List Token → List Token → ℕ → ℚ)
    (threshold : ℚ) (right_texts : List (List Token)) (right_scores : List ℚ)
    (right_sen_doc_ids : List ℕ) (texts : List (List Token)) (mask_pos : ℕ)
    (st : AscProbeSen) (L : List (Finset ℕ))
    (hlt : mask_pos < (right_texts.getD st.sen_right_id []).length)
    (hassoc : texts.getD (right_sen_doc_ids.getD st.sen_right_id 0) []
      = right_texts.getD st.sen_right_id [])
    (hL : ∀ doc pos, pos ∈ L.getD doc ∅ → pos < (texts.getD doc []).length) :
    ∀ doc pos,
      pos ∈ (asc_sen_step score threshold right_texts right_scores
        right_sen_doc_ids mask_pos st L).2.getD doc ∅ →
      pos < (texts.getD doc []).length := by
  intro doc pos hmem
  rw [asc_sen_step_snd] at hmem
  split_ifs at hmem with hch
  · rcases mem_list_getD_set hmem with hold | ⟨rfl, hins⟩
    · exact hL doc pos hold
    · rcases Finset.mem_insert.1 hins with rfl | hold
      · rw [hassoc]
        exact hlt
      · exact hL _ pos hold
  · exact hL doc pos hmem

/-- One `ASC` round preserves the salient-position range invariant. -/
theorem asc_round_salient (score : List Token → List Token → ℕ → ℚ)
    (threshold : ℚ) (right_texts : List (List Token)) (right_scores : List ℚ)
    (right_sen_doc_ids : List ℕ) (texts : List (List Token)) (mask_pos : ℕ) :
    ∀ (batch : List AscProbeSen) (L : List (Finset ℕ)),
      (∀ st ∈ batch, mask_pos < (right_texts.getD st.sen_right_id []).length ∧
        texts.getD (right_sen_doc_ids.getD st.sen_right_id 0) []
          = right_texts.getD st.sen_right_id []) →
      (∀ doc pos, pos ∈ L.getD doc ∅ → pos < (texts.getD doc []).length) →
      ∀ doc pos,
        pos ∈ (asc_round score threshold right_texts right_scores
          right_sen_doc_ids mask_pos batch L).2.getD doc ∅ →
        pos < (texts.getD doc []).length := by
  intro batch
  induction batch with
  | nil => intro L _ hL doc pos h; exact hL doc pos h
  | cons st rest ih =>
      intro L hb hL doc pos h
      rw [asc_round] at h
      cases hstep : asc_sen_step score threshold right_texts right_scores
          right_sen_doc_ids mask_pos st L with
      | mk st1 L1 =>
        rw [hstep] at h
        dsimp only at h
        cases hrec : asc_round score threshold right_texts right_scores
            right_sen_doc_ids mask_pos rest L1 with
        | mk batch1 L2 =>
          rw [hrec] at h
          dsimp only at h
          have hL1 : ∀ k p, p ∈ L1.getD k ∅ → p < (texts.getD k []).length := by
            intro k p hp
            exact asc_sen_step_salient score threshold right_texts right_scores
              right_sen_doc_ids texts mask_pos st L
              (hb st (List.mem_cons_self st rest)).1
              (hb st (List.mem_cons_self st rest)).2 hL k p (by rw [hstep]; exact hp)
          have hrest : ∀ k p, p ∈ L2.getD k ∅ → p < (texts.getD k []).length := by
            intro k p hp
            exact ih L1 (fun x hx => hb x (List.mem_cons_of_mem _ hx)) hL1 k p
              (by rw [hrec]; exact hp)
          cases st1 <;> exact hrest doc pos h

/-- The `ASC` probe loop preserves the salient-position range invariant for
any amount of fuel. -/
theorem asc_probe_loop_salient (score : List Token → List Token → ℕ → ℚ)
    (threshold : ℚ) (right_texts : List (List Token)) (right_scores : List ℚ)
    (right_sen_doc_ids : List ℕ) (texts : List (List Token)) :
    ∀ (fuel mask_pos : ℕ) (batch : List AscProbeSen) (L : List (Finset ℕ)),
      (∀ st ∈ batch, mask_pos < (right_texts.getD st.sen_right_id []).length ∧
        texts.getD (right_sen_doc_ids.getD st.sen_right_id 0) []
          = right_texts.getD st.sen_right_id []) →
      (∀ doc pos, pos ∈ L.getD doc ∅ → pos < (texts.getD doc []).length) →
      ∀ doc pos,
        pos ∈ (asc_probe_loop score threshold right_texts right_scores
          right_sen_doc_ids fuel mask_pos batch L).2.getD doc ∅ →
        pos < (texts.getD doc []).length := by
  intro fuel
  induction fuel with
  | zero => intro mask_pos batch L _ hL doc pos h; exact hL doc pos h
  | succ fuel ih =>
      intro mask_pos batch L hb hL doc pos h
      rw [asc_probe_loop.eq_def] at h
      cases batch with
      | nil => dsimp only at h; exact hL doc pos h
      | cons st rest =>
          dsimp only at h
          cases hround : asc_round score threshold right_texts right_scores
              right_sen_doc_ids mask_pos (st :: rest) L with
          | mk batch1 L1 =>
            rw [hround] at h
            dsimp only at h
            have hb1 : ∀ x ∈ batch1,
                mask_pos + 1 < (right_texts.getD x.sen_right_id []).length ∧
                texts.getD (right_sen_doc_ids.getD x.sen_right_id 0) []
                  = right_texts.getD x.sen_right_id [] := by
              intro x hx
              obtain ⟨hlt, st', hst', hrid⟩ :=
                asc_round_surv score threshold right_texts right_scores
                  right_sen_doc_ids mask_pos (st :: rest) L x (by rw [hround]; exact hx)
              refine ⟨hlt, ?_⟩
              rw [hrid]
              exact (hb st' hst').2
            have hL1 : ∀ k p, p ∈ L1.getD k ∅ → p < (texts.getD k []).length := by
              intro k p hp
              exact asc_round_salient score threshold right_texts right_scores
                right_sen_doc_ids texts mask_pos (st :: rest) L hb hL k p
                (by rw [hround]; exact hp)
            exact ih (mask_pos + 1) batch1 L1 hb1 hL1 doc pos h

theorem sc_init_batch_mem {right_sens : List (List Token)}
    {right_sen_doc_poses gts : List ℕ} {st : ProbeSen}
    (h : st ∈ sc_init_batch right_sens right_sen_doc_poses gts) :
    ∃ i, i < right_sens.length ∧
      st = ⟨right_sen_doc_poses.getD i 0, i, gts.getD i 0,
        (right_sens.getD i []).take 1⟩ := by
  rw [sc_init_batch] at h
  obtain ⟨i, hi, rfl⟩ := List.mem_map.1 h
  exact ⟨i, List.mem_range.1 hi, rfl⟩

theorem asc_init_batch_mem {right_texts right_aspects : List (List Token)}
    {right_labels : List ℕ} {st : AscProbeSen}
    (h : st ∈ asc_init_batch right_texts right_aspects right_labels) :
    ∃ i, i < right_texts.length ∧
      st = ⟨(right_texts.getD i []).take 1, right_aspects.getD i [],
        right_labels.getD i 0, i⟩ := by
  rw [asc_init_batch] at h
  obtain ⟨i, hi, rfl⟩ := List.mem_map.1 h
  exact ⟨i, List.mem_range.1 hi, rfl⟩

theorem salPoses_nil (key : ℕ) : salPoses [] key = [] := rfl

theorem getD_replicate_empty (n k : ℕ) :
    (List.replicate n (∅ : Finset ℕ)).getD k ∅ = ∅ := by
  rw [List.getD_eq_getElem?_getD, List.getElem?_replicate]
  by_cases h : k < n <;> simp [h]

/-- C2: Every position the probe records as salient is in range: for the
`SC` variant, positions recorded under `mask_poses_d[key]` are `<` the length
of the tokenized sentence at global position `key`; for the `ASC` variant,
positions in `mask_poses_L[doc]` are `<` the length of document `doc`'s
tokenized text.  (Input sentences reaching the probe are non-empty — on an
empty tokenized sentence the Python code would raise at `masked_sen.pop()`
before returning any salient set.) -/
theorem C2_salient_positions_in_range :
    (∀ (score : List Token → ℕ → ℚ) (threshold : ℚ)
        (right_sens : List (List Token)) (right_scores : List ℚ)
        (right_sen_doc_poses gts : List ℕ) (sentences : List (List Token))
        (fuel : ℕ),
      (∀ i, i < right_sens.length → right_sens.getD i [] ≠ []) →
      (∀ i, i < right_sens.length →
        sentences.getD (right_sen_doc_poses.getD i 0) [] = right_sens.getD i []) →
      ∀ key pos,
        pos ∈ salPoses ((sc_probe_loop score threshold right_sens right_scores
          fuel 0 (sc_init_batch right_sens right_sen_doc_poses gts) []).2) key →
        pos < (sentences.getD key []).length) ∧
    (∀ (score : List Token → List Token → ℕ → ℚ) (threshold : ℚ)
        (right_texts right_aspects : List (List Token)) (right_scores : List ℚ)
        (right_labels right_sen_doc_ids : List ℕ) (texts : List (List Token))
        (doc_num fuel : ℕ),
      (∀ i, i < right_texts.length → right_texts.getD i [] ≠ []) →
      (∀ i, i < right_texts.length →
        texts.getD (right_sen_doc_ids.getD i 0) [] = right_texts.getD i []) →
      ∀ doc pos,
        pos ∈ ((asc_probe_loop score threshold right_texts right_scores
          right_sen_doc_ids fuel 0
          (asc_init_batch right_texts right_aspects right_labels)
          (List.replicate doc_num ∅)).2).getD doc ∅ →
        pos < (texts.getD doc []).length) := by
  constructor
  · intro score threshold right_sens right_scores right_sen_doc_poses gts
      sentences fuel hne hassoc key pos h
    refine sc_probe_loop_salient score threshold right_sens right_scores sentences
      fuel 0 _ [] ?_ ?_ key pos h
    · intro st hst
      obtain ⟨i, hi, rfl⟩ := sc_init_batch_mem hst
      exact ⟨List.length_pos.2 (hne i hi), hassoc i hi⟩
    · intro k p hp
      rw [salPoses_nil] at hp
      exact absurd hp (List.not_mem_nil p)
  · intro score threshold right_texts right_aspects right_scores right_labels
      right_sen_doc_ids texts doc_num fuel hne hassoc doc pos h
    refine asc_probe_loop_salient score threshold right_texts right_scores
      right_sen_doc_ids texts fuel 0 _ _ ?_ ?_ doc pos h
    · intro st hst
      obtain ⟨i, hi, rfl⟩ := asc_init_batch_mem hst
      exact ⟨List.length_pos.2 (hne i hi), hassoc i hi⟩
    · intro k p hp
      rw [getD_replicate_empty] at hp
      exact absurd hp (Finset.not_mem_empty p)

/-- Witness for C2 at a concrete input: with constant scores and threshold 1
the probe records positions 0 and 1 for the two-token sentence, and the
theorem yields `1 < 2`. -/
theorem C2_salient_positions_in_range_witness :
    (1 : ℕ) < (([["a", "b"]] : List (List Token)).getD 0 []).length :=
  C2_salient_positions_in_range.1 (fun _ _ => 0) 1 [["a", "b"]] [0] [0] [0]
    [["a", "b"]] 2
    (by intro i hi
        simp only [List.length_cons, List.length_nil] at hi
        have : i = 0 := by omega
        subst this
        simp)
    (by intro i hi
        simp only [List.length_cons, List.length_nil] at hi
        have : i = 0 := by omega
        subst this
        rfl)
    0 1
    (by simp [sc_probe_loop, sc_round, sc_sen_step, sc_init_batch, addPos,
      salPoses, List.lookup])

theorem le_maxSenLen_of_mem {s : List Token} {sens : List (List Token)}
    (h : s ∈ sens) : s.length ≤ maxSenLen sens := by
  induction sens with
  | nil => cases h
  | cons x xs ih =>
      rcases List.mem_cons.1 h with rfl | hx
      · exact le_max_left _ _
      · exact le_trans (ih hx) (le_max_right _ _)

theorem maxSenLen_getD (sens : List (List Token)) (i : ℕ) :
    (sens.getD i []).length ≤ maxSenLen sens := by
  by_cases h : i < sens.length
  · rw [List.getD_eq_getElem?_getD, List.getElem?_eq_getElem h]
    exact le_maxSenLen_of_mem (List.getElem_mem h)
  · rw [List.getD_eq_getElem?_getD, List.getElem?_eq_none (Nat.le_of_not_lt h)]
    exact Nat.zero_le _

/-- With enough fuel (`M` bounding every batch sentence's length), the `SC`
probe loop empties its batch: each sentence leaves after at most
length-of-sentence rounds. -/
theorem sc_probe_loop_terminates (score : List Token → ℕ → ℚ) (threshold : ℚ)
    (right_sens : List (List Token)) (right_scores : List ℚ) (M : ℕ) :
    ∀ (fuel mask_pos : ℕ) (batch : List ProbeSen) (d : SalMap),
      (∀ st ∈ batch, mask_pos < (right_sens.getD st.sen_right_id []).length ∧
        (right_sens.getD st.sen_right_id []).length ≤ M) →
      M ≤ mask_pos + fuel →
      (sc_probe_loop score threshold right_sens right_scores fuel mask_pos
        batch d).1 = [] := by
  intro fuel
  induction fuel with
  | zero =>
      intro mask_pos batch d hb hM
      cases batch with
      | nil => rfl
      | cons st rest =>
          obtain ⟨h1, h2⟩ := hb st (List.mem_cons_self st rest)
          omega
  | succ fuel ih =>
      intro mask_pos batch d hb hM
      rw [sc_probe_loop.eq_def]
      cases batch with
      | nil => rfl
      | cons st rest =>
          dsimp only
          cases hround : sc_round score threshold right_sens right_scores mask_pos
              (st :: rest) d with
          | mk batch1 d1 =>
            refine ih (mask_pos + 1) batch1 d1 ?_ (by omega)
            intro x hx
            obtain ⟨hlt, st', hst', _, hrid⟩ :=
              sc_round_surv score threshold right_sens right_scores mask_pos
                (st :: rest) d x (by rw [hround]; exact hx)
            refine ⟨hlt, ?_⟩
            rw [hrid]
            exact (hb st' hst').2

/-- With enough fuel, the `ASC` probe loop empties its batch. -/
theorem asc_probe_loop_terminates (score : List Token → List Token → ℕ → ℚ)
    (threshold : ℚ) (right_texts : List (List Token)) (right_scores : List ℚ)
    (right_sen_doc_ids : List ℕ) (M : ℕ) :
    ∀ (fuel mask_pos : ℕ) (batch : List AscProbeSen) (L : List (Finset ℕ)),
      (∀ st ∈ batch, mask_pos < (right_texts.getD st.sen_right_id []).length ∧
        (right_texts.getD st.sen_right_id []).length ≤ M) →
      M ≤ mask_pos + fuel →
      (asc_probe_loop score threshold right_texts right_scores right_sen_doc_ids
        fuel mask_pos batch L).1 = [] := by
  intro fuel
  induction fuel with
  | zero =>
      intro mask_pos batch L hb hM
      cases batch with
      | nil => rfl
      | cons st rest =>
          obtain ⟨h1, h2⟩ := hb st (List.mem_cons_self st rest)
          omega
  | succ fuel ih =>
      intro mask_pos batch L hb hM
      rw [asc_probe_loop.eq_def]
      cases batch with
      | nil => rfl
      | cons st rest =>
          dsimp only
          cases hround : asc_round score threshold right_texts right_scores
              right_sen_doc_ids mask_pos (st :: rest) L with
          | mk batch1 L1 =>
            refine ih (mask_pos + 1) batch1 L1 ?_ (by omega)
            intro x hx
            obtain ⟨hlt, st', hst', hrid⟩ :=
              asc_round_surv score threshold right_texts right_scores
                right_sen_doc_ids mask_pos (st :: rest) L x (by rw [hround]; exact hx)
            refine ⟨hlt, ?_⟩
            rw [hrid]
            exact (hb st' hst').2

/-- C8: On every finite input (with non-empty tokenized sentences — the
probe's precondition, cf. C2), the probe's `while` loop terminates: with fuel
equal to the longest sentence length the batch is empty, because the tested
position index grows by one per round and a sentence stays alive only while
that index plus one is below its full tokenized length.  Shown for both the
`SC` and the `ASC` variant. -/
theorem C8_probe_loop_terminates :
    (∀ (score : List Token → ℕ → ℚ) (threshold : ℚ)
        (right_sens : List (List Token)) (right_scores : List ℚ)
        (right_sen_doc_poses gts : List ℕ),
      (∀ i, i < right_sens.length → right_sens.getD i [] ≠ []) →
      (sc_probe_loop score threshold right_sens right_scores
        (maxSenLen right_sens) 0
        (sc_init_batch right_sens right_sen_doc_poses gts) []).1 = []) ∧
    (∀ (score : List Token → List Token → ℕ → ℚ) (threshold : ℚ)
        (right_texts right_aspects : List (List Token)) (right_scores : List ℚ)
        (right_labels right_sen_doc_ids : List ℕ) (doc_num : ℕ),
      (∀ i, i < right_texts.length → right_texts.getD i [] ≠ []) →
      (asc_probe_loop score threshold right_texts right_scores right_sen_doc_ids
        (maxSenLen right_texts) 0
        (asc_init_batch right_texts right_aspects right_labels)
        (List.replicate doc_num ∅)).1 = []) := by
  constructor
  · intro score threshold right_sens right_scores right_sen_doc_poses gts hne
    refine sc_probe_loop_terminates score threshold right_sens right_scores
      (maxSenLen right_sens) (maxSenLen right_sens) 0 _ [] ?_ (by omega)
    intro st hst
    obtain ⟨i, hi, rfl⟩ := sc_init_batch_mem hst
    exact ⟨List.length_pos.2 (hne i hi), maxSenLen_getD right_sens i⟩
  · intro score threshold right_texts right_aspects right_scores right_labels
      right_sen_doc_ids doc_num hne
    refine asc_probe_loop_terminates score threshold right_texts right_scores
      right_sen_doc_ids (maxSenLen right_texts) (maxSenLen right_texts) 0 _ _
      ?_ (by omega)
    intro st hst
    obtain ⟨i, hi, rfl⟩ := asc_init_batch_mem hst
    exact ⟨List.length_pos.2 (hne i hi), maxSenLen_getD right_texts i⟩

/-- Witness for C8 at a concrete input: a one-document, one-sentence batch is
exhausted after (max sentence length) rounds. -/
theorem C8_probe_loop_terminates_witness :
    (sc_probe_loop (fun _ _ => 0) 1 [["a", "b"]] [0]
      (maxSenLen [["a", "b"]]) 0 (sc_init_batch [["a", "b"]] [0] [0]) []).1 = [] :=
  C8_probe_loop_terminates.1 (fun _ _ => 0) 1 [["a", "b"]] [0] [0] [0]
    (by intro i hi
        simp only [List.length_cons, List.length_nil] at hi
        have : i = 0 := by omega
        subst this
        simp)

theorem docRecs_doc_id {base doc_id : ℕ} {sens : List (List Token)} :
    ∀ r ∈ docRecs base doc_id sens, r.doc_id = doc_id := by
  induction sens generalizing base with
  | nil => intro r h; cases h
  | cons s ss ih =>
      intro r h
      rcases List.mem_cons.1 h with rfl | h
      · rfl
      · exact ih r h

theorem docRecs_tokens (base doc_id : ℕ) (sens : List (List Token)) :
    (docRecs base doc_id sens).map SenRec.tokens = sens := by
  induction sens generalizing base with
  | nil => rfl
  | cons s ss ih => simp only [docRecs, List.map_cons, ih]

theorem flattenDocs_doc_id_ge {base doc_id : ℕ} {docs : List (List (List Token))} :
    ∀ r ∈ flattenDocs base doc_id docs, doc_id ≤ r.doc_id := by
  induction docs generalizing base doc_id with
  | nil => intro r h; cases h
  | cons sens rest ih =>
      intro r h
      rcases List.mem_append.1 h with h | h
      · rw [docRecs_doc_id r h]
      · exact le_trans (Nat.le_succ _) (ih r h)

theorem sc_take_doc_none (doc_id : ℕ) (l : List SenRec)
    (h : ∀ r ∈ l, r.doc_id ≠ doc_id) : sc_take_doc doc_id l = ([], l) := by
  cases l with
  | nil => rfl
  | cons r rest =>
      rw [sc_take_doc, if_neg (h r (List.mem_cons_self r rest))]

theorem sc_take_doc_block (doc_id base : ℕ) (sens : List (List Token))
    (tail : List SenRec) (htail : ∀ r ∈ tail, r.doc_id ≠ doc_id) :
    sc_take_doc doc_id (docRecs base doc_id sens ++ tail)
      = (docRecs base doc_id sens, tail) := by
  induction sens generalizing base with
  | nil =>
      rw [docRecs, List.nil_append]
      exact sc_take_doc_none doc_id tail htail
  | cons s ss ih =>
      rw [docRecs, List.cons_append, sc_take_doc, if_pos rfl, ih (base + 1)]

theorem sc_gen_doc_tokens (vocab : List Token) (is_stop : Token → Bool)
    (d : SalMap) :
    ∀ (recs : List SenRec) (rng : Rng),
      (sc_gen_doc vocab is_stop d recs rng).1.map MaskedTokenInstance.tokens
        = recs.map SenRec.tokens := by
  intro recs
  induction recs with
  | nil => intro rng; rfl
  | cons r rest ih =>
      intro rng
      rw [sc_gen_doc]
      cases hcm : sc_create_mask vocab is_stop ((d.lookup r.idx).getD [])
          r.tokens rng with
      | mk m_info rng1 =>
        dsimp only
        cases hrec : sc_gen_doc vocab is_stop d rest rng1 with
        | mk insts rng2 =>
          dsimp only
          rw [List.map_cons]
          have := ih rng1
          rw [hrec] at this
          rw [this]
          rfl

theorem sc_gen_doc_empty (vocab : List Token) (is_stop : Token → Bool)
    (d : SalMap) :
    ∀ (recs : List SenRec) (rng : Rng),
      (∀ r ∈ recs, d.lookup r.idx = none) →
      ∀ inst ∈ (sc_gen_doc vocab is_stop d recs rng).1,
        inst.info = List.replicate inst.tokens.length none := by
  intro recs
  induction recs with
  | nil => intro rng _ inst h; exact absurd h (List.not_mem_nil inst)
  | cons r rest ih =>
      intro rng hnone inst hinst
      rw [sc_gen_doc, hnone r (List.mem_cons_self r rest)] at hinst
      dsimp only [Option.getD_none] at hinst
      rw [show sc_create_mask vocab is_stop [] r.tokens rng
          = (List.replicate r.tokens.length none, rng) from rfl] at hinst
      dsimp only at hinst
      cases hrec : sc_gen_doc vocab is_stop d rest rng with
      | mk insts rng2 =>
        rw [hrec] at hinst
        dsimp only at hinst
        rcases List.mem_cons.1 hinst with rfl | hmem
        · rfl
        · exact ih rng (fun x hx => hnone x (List.mem_cons_of_mem _ hx)) inst
            (by rw [hrec]; exact hmem)

theorem sc_gen_docs_tokens (vocab : List Token) (is_stop : Token → Bool)
    (d : SalMap) :
    ∀ (docs : List (List (List Token))) (base doc_id : ℕ) (rng : Rng),
      (sc_gen_docs vocab is_stop d docs.length doc_id
        (flattenDocs base doc_id docs) rng).1.map
          (fun insts => insts.map MaskedTokenInstance.tokens) = docs := by
  intro docs
  induction docs with
  | nil => intro base doc_id rng; rfl
  | cons sens rest ih =>
      intro base doc_id rng
      have htail : ∀ r ∈ flattenDocs (base + sens.length) (doc_id + 1) rest,
          r.doc_id ≠ doc_id := by
        intro r hr
        have := flattenDocs_doc_id_ge r hr
        omega
      simp only [List.length_cons, flattenDocs]
      rw [sc_gen_docs, sc_take_doc_block doc_id base sens _ htail]
      dsimp only
      cases hgen : sc_gen_doc vocab is_stop d (docRecs base doc_id sens) rng with
      | mk insts rng1 =>
        dsimp only
        cases hrec : sc_gen_docs vocab is_stop d rest.length (doc_id + 1)
            (flattenDocs (base + sens.length) (doc_id + 1) rest) rng1 with
        | mk docs1 rng2 =>
          dsimp only
          rw [List.map_cons]
          have h1 : insts.map MaskedTokenInstance.tokens = sens := by
            have := sc_gen_doc_tokens vocab is_stop d (docRecs base doc_id sens) rng
            rw [hgen, docRecs_tokens] at this
            exact this
          have h2 := ih (base + sens.length) (doc_id + 1) rng1
          rw [hrec] at h2
          rw [h1, h2]

theorem sc_gen_docs_empty (vocab : List Token) (is_stop : Token → Bool)
    (d : SalMap) :
    ∀ (docs : List (List (List Token))) (base doc_id : ℕ) (rng : Rng) (k : ℕ),
      k < docs.length →
      (∀ r ∈ docRecs (base + ((docs.take k).map List.length).sum) (doc_id + k)
          (docs.getD k []), d.lookup r.idx = none) →
      ∀ inst ∈ ((sc_gen_docs vocab is_stop d docs.length doc_id
          (flattenDocs base doc_id docs) rng).1.getD k []),
        inst.info = List.replicate inst.tokens.length none := by
  intro docs
  induction docs with
  | nil =>
      intro base doc_id rng k hk
      exact absurd hk (by simp)
  | cons sens rest ih =>
      intro base doc_id rng k hk hnone inst hinst
      have htail : ∀ r ∈ flattenDocs (base + sens.length) (doc_id + 1) rest,
          r.doc_id ≠ doc_id := by
        intro r hr
        have := flattenDocs_doc_id_ge r hr
        omega
      simp only [List.length_cons, flattenDocs] at hinst
      rw [sc_gen_docs, sc_take_doc_block doc_id base sens _ htail] at hinst
      dsimp only at hinst
      cases hgen : sc_gen_doc vocab is_stop d (docRecs base doc_id sens) rng with
      | mk insts rng1 =>
        rw [hgen] at hinst
        dsimp only at hinst
        cases hrec : sc_gen_docs vocab is_stop d rest.length (doc_id + 1)
            (flattenDocs (base + sens.length) (doc_id + 1) rest) rng1 with
        | mk docs1 rng2 =>
          rw [hrec] at hinst
          dsimp only at hinst
          cases k with
          | zero =>
              simp only [List.take_zero, List.map_nil, List.sum_nil, Nat.add_zero,
                List.getD_cons_zero] at hnone hinst
              have := sc_gen_doc_empty vocab is_stop d (docRecs base doc_id sens)
                rng hnone inst (by rw [hgen]; exact hinst)
              exact this
          | succ k0 =>
              simp only [List.getD_cons_succ] at hinst hnone
              have hk0 : k0 < rest.length := by
                simp only [List.length_cons] at hk
                omega
              have hnone' : ∀ r ∈ docRecs ((base + sens.length)
                  + ((rest.take k0).map List.length).sum) ((doc_id + 1) + k0)
                  (rest.getD k0 []), d.lookup r.idx = none := by
                intro r hr
                apply hnone r
                rw [show base + ((List.take (k0 + 1) (sens :: rest)).map
                    List.length).sum
                    = base + sens.length + ((rest.take k0).map List.length).sum by
                  simp only [List.take_succ_cons, List.map_cons, List.sum_cons]
                  omega]
                rw [show doc_id + (k0 + 1) = doc_id + 1 + k0 by omega]
                exact hr
              have := ih (base + sens.length) (doc_id + 1) rng1 k0 hk0 hnone' inst
                (by rw [hrec]; exact hinst)
              exact this

theorem sc_generate_tokens (vocab : List Token) (is_stop : Token → Bool)
    (d : SalMap) (docs : List (List (List Token))) :
    ∀ (dupe : ℕ) (rng : Rng),
      (sc_generate vocab is_stop d docs.length (flattenDocs 0 0 docs)
        dupe rng).1.map (fun insts => insts.map MaskedTokenInstance.tokens)
      = (List.replicate dupe docs).flatten := by
  intro dupe
  induction dupe with
  | zero => intro rng; rfl
  | succ k ih =>
      intro rng
      rw [sc_generate]
      cases hgd : sc_gen_docs vocab is_stop d docs.length 0
          (flattenDocs 0 0 docs) rng with
      | mk docs1 rng1 =>
        dsimp only
        cases hrec : sc_generate vocab is_stop d docs.length
            (flattenDocs 0 0 docs) k rng1 with
        | mk docs2 rng2 =>
          dsimp only
          rw [List.map_append, List.replicate_succ, List.flatten_cons]
          have h1 := sc_gen_docs_tokens vocab is_stop d docs 0 0 rng
          rw [hgd] at h1
          have h2 := ih rng1
          rw [hrec] at h2
          rw [h1, h2]

theorem sc_sen_step_keys {score : List Token → ℕ → ℚ} {threshold : ℚ}
    {right_sens : List (List Token)} {right_scores : List ℚ}
    {mask_pos : ℕ} {st : ProbeSen} {d : SalMap} :
    ∀ k ∈ salKeys (sc_sen_step score threshold right_sens right_scores
      mask_pos st d).2, k = st.sen_doc_pos ∨ k ∈ salKeys d := by
  intro k hk
  rw [sc_sen_step_snd] at hk
  split_ifs at hk with hch
  · rcases List.mem_cons.1 (salKeys_addPos d st.sen_doc_pos mask_pos hk) with h | h
    · exact Or.inl h
    · exact Or.inr h
  · exact Or.inr hk

theorem sc_round_keys (score : List Token → ℕ → ℚ) (threshold : ℚ)
    (right_sens : List (List Token)) (right_scores : List ℚ) (mask_pos : ℕ) :
    ∀ (batch : List ProbeSen) (d : SalMap) (k : ℕ),
      k ∈ salKeys (sc_round score threshold right_sens right_scores mask_pos
        batch d).2 →
      k ∈ salKeys d ∨ k ∈ batch.map ProbeSen.sen_doc_pos := by
  intro batch
  induction batch with
  | nil => intro d k h; exact Or.inl h
  | cons st rest ih =>
      intro d k h
      rw [sc_round] at h
      cases hstep : sc_sen_step score threshold right_sens right_scores mask_pos st d with
      | mk st1 d1 =>
        rw [hstep] at h
        dsimp only at h
        cases hrec : sc_round score threshold right_sens right_scores mask_pos rest d1 with
        | mk batch1 d2 =>
          rw [hrec] at h
          dsimp only at h
          have hmem : k ∈ salKeys d2 := by
            cases st1 <;> exact h
          rcases ih d1 k (by rw [hrec]; exact hmem) with h1 | h1
          · have := sc_sen_step_keys k (by rw [hstep]; exact h1)
            rcases this with h2 | h2
            · exact Or.inr (by rw [List.map_cons, h2]; exact List.mem_cons_self _ _)
            · exact Or.inl h2
          · exact Or.inr (by rw [List.map_cons]; exact List.mem_cons_of_mem _ h1)

theorem sc_probe_loop_keys (score : List Token → ℕ → ℚ) (threshold : ℚ)
    (right_sens : List (List Token)) (right_scores : List ℚ) :
    ∀ (fuel mask_pos : ℕ) (batch : List ProbeSen) (d : SalMap) (k : ℕ),
      k ∈ salKeys ((sc_probe_loop score threshold right_sens right_scores
        fuel mask_pos batch d).2) →
      k ∈ salKeys d ∨ k ∈ batch.map ProbeSen.sen_doc_pos := by
  intro fuel
  induction fuel with
  | zero => intro mask_pos batch d k h; exact Or.inl h
  | succ fuel ih =>
      intro mask_pos batch d k h
      rw [sc_probe_loop.eq_def] at h
      cases batch with
      | nil => dsimp only at h; exact Or.inl h
      | cons st rest =>
          dsimp only at h
          cases hround : sc_round score threshold right_sens right_scores mask_pos
              (st :: rest) d with
          | mk batch1 d1 =>
            rw [hround] at h
            dsimp only at h
            rcases ih (mask_pos + 1) batch1 d1 k h with h1 | h1
            · exact sc_round_keys score threshold right_sens right_scores mask_pos
                (st :: rest) d k (by rw [hround]; exact h1)
            · obtain ⟨x, hx, rfl⟩ := List.mem_map.1 h1
              obtain ⟨_, st', hst', hdp, _⟩ :=
                sc_round_surv score threshold right_sens right_scores mask_pos
                  (st :: rest) d x (by rw [hround]; exact hx)
              exact Or.inr (by rw [hdp]; exact List.mem_map_of_mem _ hst')

/-- C7: Stop-word exclusion happens only at mask-construction time: (a) a
salient position whose token is a stop word receives no mask entry from
`SC.create_mask` / `ASC.create_mask`; (b) the probe's score-drop phase never
consults the stop-word predicate — `sc_mask_positions` takes no such
predicate, and the full probe-and-assemble pipeline emits identical token
sequences whatever stop-word predicate (and random stream) is supplied. -/
theorem C7_stopword_exclusion_only_at_mask_time :
    (∀ (vocab : List Token) (is_stop : Token → Bool) (poses : List ℕ)
        (sen : List Token) (rng : Rng) (pos : ℕ),
      is_stop (sen.getD pos "") = true →
      (sc_create_mask vocab is_stop poses sen rng).1.getD pos none = none ∧
      (asc_create_mask vocab is_stop poses sen rng).1.getD pos none = none) ∧
    (∀ (vocab : List Token) (s1 s2 : Token → Bool)
        (score : List Token → ℕ → ℚ) (threshold : ℚ)
        (right_sens : List (List Token)) (right_scores : List ℚ)
        (right_sen_doc_poses gts : List ℕ) (docs : List (List (List Token)))
        (dupe : ℕ) (rng1 rng2 : Rng),
      (sc_probe_and_generate vocab s1 score threshold right_sens right_scores
        right_sen_doc_poses gts docs.length (flattenDocs 0 0 docs) dupe rng1).1.map
          (fun insts => insts.map MaskedTokenInstance.tokens)
      = (sc_probe_and_generate vocab s2 score threshold right_sens right_scores
        right_sen_doc_poses gts docs.length (flattenDocs 0 0 docs) dupe rng2).1.map
          (fun insts => insts.map MaskedTokenInstance.tokens)) := by
  constructor
  · intro vocab is_stop poses sen rng pos hs
    constructor
    · rw [sc_create_mask, sc_fold_getD_eq vocab is_stop sen pos poses _
        (fun p _ hpq => hpq ▸ hs)]
      exact getD_replicate_none _ _
    · rw [asc_create_mask, sc_fold_getD_eq vocab is_stop sen pos poses _
        (fun p _ hpq => hpq ▸ hs)]
      exact getD_replicate_none _ _
  · intro vocab s1 s2 score threshold right_sens right_scores right_sen_doc_poses
      gts docs dupe rng1 rng2
    rw [sc_probe_and_generate, sc_probe_and_generate,
      sc_generate_tokens, sc_generate_tokens]

/-- Witness for C7 at a concrete input: the salient stop-word position 0 gets
no entry. -/
theorem C7_stopword_exclusion_witness :
    (sc_create_mask ["w"] (fun t => t == "the") [0] ["the"]
      ⟨[0], [0]⟩).1.getD 0 none = none :=
  (C7_stopword_exclusion_only_at_mask_time.1 ["w"] (fun t => t == "the") [0]
    ["the"] ⟨[0], [0]⟩ 0 rfl).1

/-- C9: A document none of whose sentences is classified correctly is no
error: (a) its survivor list is empty, so it is simply skipped by the
selector; (b) the probe only ever records salient positions under keys
belonging to batch members, so such a document's sentences acquire none; in
the `SC` assembly, (c) every replica's instance list covers every segmented
sentence of every document — retained or not — in original order
(`dupe_factor` replicas concatenated), and (d) a document none of whose
sentence positions is a key of `mask_poses_d` gets all-empty mask info
(unmasked passthrough). -/
theorem C9_unretained_documents_passthrough :
    (∀ (doc_id gt : ℕ) (items : List (ℕ × List Token × ℕ × List ℚ)),
      (∀ it ∈ items, it.2.2.1 ≠ gt) → docCands doc_id gt items = []) ∧
    (∀ (score : List Token → ℕ → ℚ) (threshold : ℚ)
        (right_sens : List (List Token)) (right_scores : List ℚ)
        (fuel mask_pos : ℕ) (batch : List ProbeSen) (d : SalMap) (k : ℕ),
      k ∈ salKeys ((sc_probe_loop score threshold right_sens right_scores
        fuel mask_pos batch d).2) →
      k ∈ salKeys d ∨ k ∈ batch.map ProbeSen.sen_doc_pos) ∧
    (∀ (vocab : List Token) (is_stop : Token → Bool) (d : SalMap)
        (docs : List (List (List Token))) (dupe : ℕ) (rng : Rng),
      (sc_generate vocab is_stop d docs.length (flattenDocs 0 0 docs)
        dupe rng).1.map (fun insts => insts.map MaskedTokenInstance.tokens)
      = (List.replicate dupe docs).flatten) ∧
    (∀ (vocab : List Token) (is_stop : Token → Bool) (d : SalMap)
        (docs : List (List (List Token))) (rng : Rng) (k : ℕ),
      k < docs.length →
      (∀ r ∈ docRecs (((docs.take k).map List.length).sum) k (docs.getD k []),
        d.lookup r.idx = none) →
      ∀ inst ∈ ((sc_gen_docs vocab is_stop d docs.length 0
          (flattenDocs 0 0 docs) rng).1.getD k []),
        inst.info = List.replicate inst.tokens.length none) := by
  refine ⟨?_, ?_, ?_, ?_⟩
  · intro doc_id gt items h
    rw [docCands, List.filterMap_eq_nil]
    intro it hit
    rw [if_neg (h it hit)]
  · intro score threshold right_sens right_scores fuel mask_pos batch d k h
    exact sc_probe_loop_keys score threshold right_sens right_scores fuel
      mask_pos batch d k h
  · intro vocab is_stop d docs dupe rng
    exact sc_generate_tokens vocab is_stop d docs dupe rng
  · intro vocab is_stop d docs rng k hk hnone inst hinst
    exact sc_gen_docs_empty vocab is_stop d docs 0 0 rng k hk
      (by rw [Nat.zero_add, Nat.zero_add]; exact hnone) inst hinst

/-- Witness for C9 at a concrete input: a document whose only sentence has
predicted label 1 against ground truth 0 yields no survivors. -/
theorem C9_unretained_documents_passthrough_witness :
    docCands 0 0 [(0, ["s"], 1, [(1 : ℚ)])] = [] :=
  C9_unretained_documents_passthrough.1 0 0 [(0, ["s"], 1, [(1 : ℚ)])]
    (by intro it hit
        rcases List.mem_cons.1 hit with rfl | h
        · decide
        · exact absurd h (List.not_mem_nil it))
